import Mathlib

/-!
Verification of the overlapping-generations pedigree simulator
(`simulate_pedigree.py`) and the companion genotype-string generator
(`simulate_genotypes.py`).

The Python code is embedded shallowly:

* numpy's random draws are modelled by an explicit stream `Nat → Nat` of raw
  draws together with a cursor; a single uniform draw from a pool of size `n`
  is the raw draw reduced modulo `n`.
* the `sires`/`dams` arrays are modelled as total functions `Nat → Nat`
  (0-based index, individual `i+1`'s record lives at index `i`), initialised
  to `0` like `np.zeros`.
* the generation-pool dictionary is an association list, registration appends
  at the end (Python dicts preserve insertion order) and eviction filters a
  key out.
* the self-mating resampling loop (`while np.any(same_parent): ...`) can
  genuinely diverge, so it receives fuel and returns `none` when the fuel is
  exhausted while a collision is still present; divergence of the Python loop
  corresponds to `none` for every fuel value.
* `np.concatenate` applied to an empty list of arrays raises `ValueError`;
  the embedding returns a distinguished `valueError` outcome in that case.
* the outer `while` loop also receives fuel, only to make the recursion
  structural; every claim about finished runs is conditioned on the loop
  having returned.
* ids are modelled as unbounded naturals; the source stores them as `int32`,
  which agrees with this model for any population below `2^31` individuals.
-/

namespace PedigreeSim

/-- Embedding of `np.arange(start, start + len)`: the list
`[start, start+1, ..., start+len-1]`. -/
def natRange (start len : Nat) : List Nat :=
  match len with
  | 0 => []
  | l + 1 => start :: natRange (start + 1) l

/-- One uniform draw of an index below `len`: the raw stream value at the
cursor, reduced modulo the pool size (`np.random.choice(len, ...)`). -/
def draw (stream : Nat → Nat) (ctr len : Nat) : Nat := stream ctr % len

/-- `np.random.choice(len(pool), size=(n, 2))` followed by indexing the pool:
draws `n` (sire, dam) pairs row-major, consuming two raw draws per pair.
Returns the selected sires, the selected dams and the advanced cursor. -/
def drawParentPairs (stream : Nat → Nat) (pool : List Nat) :
    Nat → Nat → List Nat × List Nat × Nat
  | 0, ctr => ([], [], ctr)
  | n + 1, ctr =>
    let s := pool.getD (draw stream ctr pool.length) 0
    let d := pool.getD (draw stream (ctr + 1) pool.length) 0
    let rest := drawParentPairs stream pool n (ctr + 2)
    (s :: rest.1, d :: rest.2.1, rest.2.2)

/-- `np.any(selected_sires == selected_dams)`. -/
def anySameParent (sires dams : List Nat) : Bool :=
  (List.zip sires dams).any (fun p => p.1 == p.2)

/-- One round of `selected_dams[same_parent] = np.random.choice(pool, np.sum(same_parent))`:
every position whose dam collides with its sire gets a fresh draw from the
pool, colliding positions consuming consecutive raw draws in position order. -/
def redrawSameDams (stream : Nat → Nat) (pool : List Nat) :
    List Nat → List Nat → Nat → List Nat × Nat
  | s :: ss, d :: ds, ctr =>
    if s = d then
      let d' := pool.getD (draw stream ctr pool.length) 0
      let rest := redrawSameDams stream pool ss ds (ctr + 1)
      (d' :: rest.1, rest.2)
    else
      let rest := redrawSameDams stream pool ss ds ctr
      (d :: rest.1, rest.2)
  | _, _, ctr => ([], ctr)

/-- The `while np.any(same_parent)` resampling loop, with fuel: returns the
final dams and cursor once no collision remains, `none` if the fuel runs out
while a collision persists (modelling divergence of the Python loop). -/
def resampleDams (stream : Nat → Nat) (pool : List Nat) (sires : List Nat) :
    Nat → List Nat → Nat → Option (List Nat × Nat)
  | fuel, dams, ctr =>
    if anySameParent sires dams then
      match fuel with
      | 0 => none
      | fuel' + 1 =>
        let next := redrawSameDams stream pool sires dams ctr
        resampleDams stream pool sires fuel' next.1 next.2
    else some (dams, ctr)

/-- `generation_pools[g]` on the association-list model of the dict. -/
def poolLookup (pools : List (Nat × List Nat)) (g : Nat) : Option (List Nat) :=
  match pools with
  | [] => none
  | (k, v) :: rest => if k = g then some v else poolLookup rest g

/-- `del generation_pools[g]` (a no-op when the key is absent, matching the
`if old_gen in generation_pools` guard). -/
def poolErase (pools : List (Nat × List Nat)) (g : Nat) : List (Nat × List Nat) :=
  pools.filter (fun p => p.1 ≠ g)

/-- `range(max(0, current_generation - generation_overlap + 1), current_generation + 1)`;
truncated subtraction on `Nat` realises the `max(0, ·)`. -/
def activeGenerations (cg overlap : Nat) : List Nat :=
  natRange (cg + 1 - overlap) (cg + 1 - (cg + 1 - overlap))

/-- `[generation_pools[gen] for gen in active_generations if gen in generation_pools]`. -/
def activePools (pools : List (Nat × List Nat)) (cg overlap : Nat) : List (List Nat) :=
  (activeGenerations cg overlap).filterMap (poolLookup pools)

/-- `np.concatenate`, which raises `ValueError` (here `none`) on an empty
list of arrays. -/
def concatArrays? (ls : List (List Nat)) : Option (List Nat) :=
  match ls with
  | [] => none
  | _ :: _ => some ls.flatten

/-- numpy slice assignment `a[start : start + vals.length] = vals` on the
functional model of an array. -/
def writeSlice (f : Nat → Nat) (start : Nat) (vals : List Nat) : Nat → Nat :=
  fun i => if start ≤ i ∧ i < start + vals.length then vals.getD (i - start) 0 else f i

/-- `ids[-g:]` on a Python list: the whole list when `g = 0` (since `-0 = 0`),
otherwise the last `g` elements. -/
def tailSlice (l : List Nat) (g : Nat) : List Nat :=
  if g = 0 then l else l.drop (l.length - g)

/-- The mutable state of the generation loop. -/
structure SimState where
  sires : Nat → Nat
  dams : Nat → Nat
  currentGeneration : Nat
  generationPools : List (Nat × List Nat)
  currentId : Nat
  totalGenerated : Nat
  ctr : Nat

/-- Observation of one loop iteration: the generation index and pool mapping
used to build the eligible-parent set, the eligible-parent set itself, and the
pool mapping right after register + evict. -/
structure StepSnapshot where
  generation : Nat
  pools : List (Nat × List Nat)
  eligible : List Nat
  poolsAfter : List (Nat × List Nat)
deriving DecidableEq

/-- How the generation loop exited: normally (`current_id > n_individuals`)
or through the empty-pool `break`. -/
inductive SimExit where
  | completed
  | extinct
deriving DecidableEq

/-- Result of the generation loop: a final state with its trace, or the
`ValueError` raised by `np.concatenate` on an empty list. -/
inductive LoopDone where
  | finished (state : SimState) (trace : List StepSnapshot) (exitKind : SimExit)
  | valueError

/-- Register the new cohort under index `cg\'` and immediately evict
generation `cg\' - overlap - 1` when that index is non-negative in Python
(`overlap + 1 ≤ cg\'` on `Nat`); a negative index is never a dict key, so the
`del` is a no-op then (lines 96-102 of the source). -/
def registerAndEvict (pools : List (Nat × List Nat)) (overlap cg' : Nat)
    (newIds : List Nat) : List (Nat × List Nat) :=
  if overlap + 1 ≤ cg' then poolErase (pools ++ [(cg', newIds)]) (cg' - overlap - 1)
  else pools ++ [(cg', newIds)]

/-- The state after one successful loop iteration: the sampled parents are
written into the slice `[current_id - 1, end_id - 1)` of the arrays, the new
cohort `np.arange(current_id, end_id)` is registered, the stale generation is
evicted, and the cursors advance. -/
def stepState (S : SimState) (overlap nOff : Nat) (selSires selDams : List Nat)
    (ctr2 : Nat) : SimState :=
  { sires := writeSlice S.sires (S.currentId - 1) selSires
    dams := writeSlice S.dams (S.currentId - 1) selDams
    currentGeneration := S.currentGeneration + 1
    generationPools := registerAndEvict S.generationPools overlap
      (S.currentGeneration + 1) (natRange S.currentId nOff)
    currentId := S.currentId + nOff
    totalGenerated := S.totalGenerated + nOff
    ctr := ctr2 }

/-- The observation recorded for one successful loop iteration. -/
def stepSnap (S : SimState) (overlap : Nat) (available : List Nat) (nOff : Nat) :
    StepSnapshot :=
  { generation := S.currentGeneration
    pools := S.generationPools
    eligible := available
    poolsAfter := registerAndEvict S.generationPools overlap
      (S.currentGeneration + 1) (natRange S.currentId nOff) }

/-- The `while current_id <= n_individuals` loop of
`simulate_overlapping_generations_pedigree` (lines 54-105 of the source),
one constructor case per iteration, with fuel to make the recursion
structural. -/
def simLoop (stream : Nat → Nat) (nIndividuals chunkSize overlap resFuel : Nat) :
    Nat → SimState → List StepSnapshot → Option LoopDone
  | 0, _, _ => none
  | loopFuel + 1, S, tr =>
    if S.currentId ≤ nIndividuals then
      match concatArrays? (activePools S.generationPools S.currentGeneration overlap) with
      | none => some LoopDone.valueError
      | some available =>
        if available.length = 0 then
          some (LoopDone.finished S tr SimExit.extinct)
        else
          match resampleDams stream available
              (drawParentPairs stream available
                (min chunkSize (nIndividuals - S.currentId + 1)) S.ctr).1
              resFuel
              (drawParentPairs stream available
                (min chunkSize (nIndividuals - S.currentId + 1)) S.ctr).2.1
              (drawParentPairs stream available
                (min chunkSize (nIndividuals - S.currentId + 1)) S.ctr).2.2 with
          | none => none
          | some (selDams, ctr2) =>
            simLoop stream nIndividuals chunkSize overlap resFuel loopFuel
              (stepState S overlap (min chunkSize (nIndividuals - S.currentId + 1))
                (drawParentPairs stream available
                  (min chunkSize (nIndividuals - S.currentId + 1)) S.ctr).1
                selDams ctr2)
              (tr ++ [stepSnap S overlap available
                (min chunkSize (nIndividuals - S.currentId + 1))])
    else
      some (LoopDone.finished S tr SimExit.completed)

/-- Everything `simulate_overlapping_generations_pedigree` produces: the final
parent arrays, the genotyped cohort (`ids[-n_genotyped:]`), the surviving pool
mapping, the bookkeeping counters, the loop trace, and the count announced by
the final `"Pedigree completo com {n_individuals:,} indivíduos gerados."`
message (which interpolates `n_individuals`). -/
structure RunResult where
  sires : Nat → Nat
  dams : Nat → Nat
  genotypedIds : List Nat
  generationPools : List (Nat × List Nat)
  totalGenerated : Nat
  finalId : Nat
  exitKind : SimExit
  trace : List StepSnapshot
  reportedCount : Nat

/-- Outcome of a whole run: a normal return, or the `ValueError` raised by
`np.concatenate([])`. -/
inductive SimOutcome where
  | ok (r : RunResult)
  | valueError

/-- The state right before the generation loop starts: zeroed parent arrays,
generation 0 holding the founder ids `1..n_founders`, and the id cursor at
`n_founders + 1` (lines 31-47 of the source). -/
def initState (nFounders : Nat) : SimState :=
  { sires := fun _ => 0
    dams := fun _ => 0
    currentGeneration := 0
    generationPools := [(0, natRange 1 nFounders)]
    currentId := nFounders + 1
    totalGenerated := 0
    ctr := 0 }

/-- Shallow embedding of `simulate_overlapping_generations_pedigree`
(lines 4-147): founders get sire = dam = 0, generation 0 holds ids
`1..n_founders`, the chunked loop runs with the source's hard-coded
`chunk_size = 100_000`, and the genotyped cohort is the tail slice of
`ids = np.arange(1, n_individuals + 1)`.  `avgProgenyPerParent` is a
parameter of the source function and is carried here as well. -/
def simulatePedigree (stream : Nat → Nat)
    (nIndividuals nGenotyped nFounders avgProgenyPerParent generationOverlap : Nat)
    (loopFuel resFuel : Nat) : Option SimOutcome :=
  match simLoop stream nIndividuals 100000 generationOverlap resFuel loopFuel
      (initState nFounders) [] with
  | none => none
  | some LoopDone.valueError => some SimOutcome.valueError
  | some (LoopDone.finished S tr exitKind) =>
      some (SimOutcome.ok
        { sires := S.sires
          dams := S.dams
          genotypedIds := tailSlice (natRange 1 nIndividuals) nGenotyped
          generationPools := S.generationPools
          totalGenerated := S.totalGenerated
          finalId := S.currentId
          exitKind := exitKind
          trace := tr
          reportedCount := nIndividuals })

/-- Projects the normal-return result out of an outcome. -/
def outcomeResult (o : Option SimOutcome) : Option RunResult :=
  match o with
  | some (SimOutcome.ok r) => some r
  | _ => none

instance : Inhabited RunResult :=
  ⟨{ sires := fun _ => 0, dams := fun _ => 0, genotypedIds := [], generationPools := []
     totalGenerated := 0, finalId := 0, exitKind := SimExit.completed, trace := []
     reportedCount := 0 }⟩

instance : Inhabited StepSnapshot :=
  ⟨{ generation := 0, pools := [], eligible := [], poolsAfter := [] }⟩

/-- The normal-return result of an outcome, defaulting on error. -/
def runD (o : Option SimOutcome) : RunResult :=
  (outcomeResult o).getD default

/-- Modelled from the spec: `eligible_parents(current_index, overlap)` returns
the concatenation of ids from all registered cohorts whose index lies in
`[current_index - overlap + 1, current_index]` (the source exposes no separate
`eligible_parents` routine; this is §4.1's contract, compared below with the
eligible-parent set the loop actually computes). -/
def eligibleParentsSpec (pools : List (Nat × List Nat)) (cg overlap : Nat) : List Nat :=
  ((pools.filter (fun p => decide (cg + 1 - overlap ≤ p.1 ∧ p.1 ≤ cg))).map Prod.snd).flatten

/-- `SimOutcome` with the genotyped cohort blanked out, for comparing two
runs up to the genotyped-subset selection. -/
def eraseGenotyped : SimOutcome → SimOutcome
  | SimOutcome.ok r => SimOutcome.ok { r with genotypedIds := [] }
  | SimOutcome.valueError => SimOutcome.valueError

/-! ### Serialization (lines 109-131 of the source)

`pedigree_df.to_csv(output, sep=' ', index=False, header=False)` writes one
`id sire dam` line per individual, decimal fields separated by single spaces,
each line terminated by a newline, no header.  The genotyped cross-reference
file is the same with fields `id id`.  Files are modelled as `String`s over
their character lists. -/

/-- The decimal digit characters of `n`, most significant first (how Python
renders an integer). -/
def natDecimal (n : Nat) : List Char :=
  if h : n < 10 then [Nat.digitChar n]
  else natDecimal (n / 10) ++ [Nat.digitChar (n % 10)]
decreasing_by
  exact Nat.div_lt_self (by omega) (by omega)

/-- One pedigree row `id sire dam`. -/
def pedLine (t : Nat × Nat × Nat) : List Char :=
  natDecimal t.1 ++ (' ' :: (natDecimal t.2.1 ++ (' ' :: natDecimal t.2.2)))

def pedFileChars (rows : List (Nat × Nat × Nat)) : List Char :=
  (rows.map (fun t => pedLine t ++ ['\n'])).flatten

/-- The rows of `pedigree_df`: `(ids[i], sires[i], dams[i])` for
`i = 0 .. n-1`, with `ids = np.arange(1, n+1)`. -/
def pedRows (n : Nat) (sires dams : Nat → Nat) : List (Nat × Nat × Nat) :=
  (natRange 0 n).map (fun i => (i + 1, sires i, dams i))

/-- The pedigree file as written by `to_csv`. -/
def pedigreeFile (rows : List (Nat × Nat × Nat)) : String :=
  String.mk (pedFileChars rows)

/-- One genotyped cross-reference row `id id`. -/
def genoLine (p : Nat × Nat) : List Char :=
  natDecimal p.1 ++ ' ' :: natDecimal p.2

/-- The rows of `genotyped_df`: the id duplicated in two columns. -/
def genoRows (ids : List Nat) : List (Nat × Nat) :=
  ids.map (fun i => (i, i))

/-- The genotyped cross-reference file as written by `to_csv`. -/
def genotypedFile (ids : List Nat) : String :=
  String.mk (((genoRows ids).map (fun p => genoLine p ++ ['\n'])).flatten)

/-! ### Re-parsing the exports

Modelled from the spec: the source never re-reads the pedigree file, and the
genotyped file is re-read only by `simulate_genotypes` (first whitespace token
per line as an integer).  The spec's round-trip property (§8) needs a generic
re-parser for the space-separated decimal exports: split on newlines, split
each line on spaces, read each field as a decimal natural. -/

def splitOnChar (c : Char) : List Char → List (List Char)
  | [] => [[]]
  | a :: rest =>
    if a = c then [] :: splitOnChar c rest
    else
      match splitOnChar c rest with
      | [] => [[a]]
      | f :: t => (a :: f) :: t

/-- Reads a non-empty all-digit field as a decimal natural. -/
def decToNat? (l : List Char) : Option Nat :=
  if l.isEmpty then none
  else if l.all Char.isDigit then
    some (l.foldl (fun a c => a * 10 + (c.toNat - 48)) 0)
  else none

def parsedTriple (l : List Char) : Option (Nat × Nat × Nat) :=
  match (splitOnChar ' ' l).map decToNat? with
  | [some a, some b, some c] => some (a, b, c)
  | _ => none

def parsedPair (l : List Char) : Option (Nat × Nat) :=
  match (splitOnChar ' ' l).map decToNat? with
  | [some a, some b] => some (a, b)
  | _ => none

/-- Parses the newline-split pieces of a pedigree file: every piece but the
last is an `id sire dam` line, and the final newline leaves one empty piece. -/
def parseTripleLines : List (List Char) → Option (List (Nat × Nat × Nat))
  | [] => none
  | [last] => if last.isEmpty then some [] else none
  | l :: m :: rest =>
    match parsedTriple l, parseTripleLines (m :: rest) with
    | some t, some ts => some (t :: ts)
    | _, _ => none

def parsePedFile (s : String) : Option (List (Nat × Nat × Nat)) :=
  parseTripleLines (splitOnChar '\n' s.data)

def parsePairLines : List (List Char) → Option (List (Nat × Nat))
  | [] => none
  | [last] => if last.isEmpty then some [] else none
  | l :: m :: rest =>
    match parsedPair l, parsePairLines (m :: rest) with
    | some t, some ts => some (t :: ts)
    | _, _ => none

def parseGenoFile (s : String) : Option (List (Nat × Nat)) :=
  parsePairLines (splitOnChar '\n' s.data)

/-! ### The genotype-string generator (`simulate_genotypes.py`)

The ids are taken as already parsed from the cross-reference file.  Each
genotype call is one categorical draw with support `{0, 1, 2}` (the
Hardy-Weinberg probabilities computed from the minor-allele frequencies only
shape the distribution, never the support), modelled as a raw stream value
reduced modulo 3.  The source processes ids in chunks of 10000 and fills each
chunk's matrix one SNP column at a time, so within a chunk the draw for row
`r`, column `i` is draw number `i * n_chunk + r` after the chunk's base. -/

/-- `str(x).zfill(w)`: left-pad with `'0'` to width `w`, never truncating. -/
def zfill (w : Nat) (l : List Char) : List Char :=
  List.replicate (w - l.length) '0' ++ l

/-- `ids.max()` (numpy requires a non-empty array). -/
def idsMax (ids : List Nat) : Nat := ids.foldl max 0

/-- The `n_snps` genotype characters of row `r` in a chunk of size `nChunk`
whose draws start at `base`: column-major draw consumption. -/
def genoSnpRow (stream : Nat → Nat) (base nChunk r nSnps : Nat) : List Char :=
  (natRange 0 nSnps).map (fun i => Nat.digitChar (stream (base + i * nChunk + r) % 3))

/-- The output lines of one chunk, row `r` onwards. -/
def chunkLines (stream : Nat → Nat) (base nChunk nSnps w : Nat) :
    List Nat → Nat → List (List Char)
  | [], _ => []
  | i :: rest, r =>
    (zfill w (natDecimal i) ++ ' ' :: genoSnpRow stream base nChunk r nSnps) ::
      chunkLines stream base nChunk nSnps w rest (r + 1)

/-- All output lines, processing the ids in chunks of 10000 as the source
does. -/
def genoChunkLines (stream : Nat → Nat) (nSnps w : Nat) :
    List Nat → Nat → List (List Char)
  | [], _ => []
  | i :: rest, base =>
    chunkLines stream base ((i :: rest).take 10000).length nSnps w
        ((i :: rest).take 10000) 0 ++
      genoChunkLines stream nSnps w ((i :: rest).drop 10000)
        (base + ((i :: rest).take 10000).length * nSnps)
termination_by l _ => l.length
decreasing_by
  simp only [List.length_drop]
  simp only [List.length_cons]
  omega

/-- The genotype file written by `simulate_genotypes`: per id one line
`zfill(max_id_width)(id) ++ ' ' ++ <n_snps genotype chars>`. -/
def genotypesFile (stream : Nat → Nat) (ids : List Nat) (nSnps : Nat) : String :=
  String.mk (((genoChunkLines stream nSnps (natDecimal (idsMax ids)).length ids 0).map
    (fun l => l ++ ['\n'])).flatten)

/-! ### Basic lemmas about the list-range embedding of `np.arange` -/

theorem natRange_length (start len : Nat) : (natRange start len).length = len := by
  induction len generalizing start with
  | zero => rfl
  | succ l ih => simp [natRange, ih]

theorem mem_natRange {x start len : Nat} :
    x ∈ natRange start len ↔ start ≤ x ∧ x < start + len := by
  induction len generalizing start with
  | zero => simp [natRange]
  | succ l ih =>
    simp only [natRange, List.mem_cons, ih]
    omega

theorem natRange_succ_last (start len : Nat) :
    natRange start (len + 1) = natRange start len ++ [start + len] := by
  induction len generalizing start with
  | zero => rfl
  | succ l ih =>
    show start :: natRange (start + 1) (l + 1) = start :: natRange (start + 1) l ++ _
    rw [ih]
    simp [Nat.add_assoc, Nat.add_comm 1 l]

theorem natRange_drop (start len m : Nat) :
    (natRange start len).drop m = natRange (start + m) (len - m) := by
  induction m generalizing start len with
  | zero => simp
  | succ k ih =>
    cases len with
    | zero => simp [natRange]
    | succ l =>
      show (natRange (start + 1) l).drop k = _
      rw [ih]
      congr 1 <;> omega

/-! ### Lookup and filtering on pool mappings of range shape -/

theorem poolLookup_map_natRange (C : Nat → List Nat) (lo K j : Nat) :
    poolLookup ((natRange lo K).map (fun g => (g, C g))) j =
      if lo ≤ j ∧ j < lo + K then some (C j) else none := by
  induction K generalizing lo with
  | zero =>
    simp only [natRange, List.map_nil, poolLookup]
    rw [if_neg]
    omega
  | succ l ih =>
    show (if lo = j then some (C lo) else poolLookup _ j) = _
    rw [ih]
    by_cases h : lo = j
    · subst h
      rw [if_pos rfl, if_pos (by omega)]
    · rw [if_neg h]
      by_cases h2 : lo + 1 ≤ j ∧ j < lo + 1 + l
      · rw [if_pos h2, if_pos (by omega)]
      · rw [if_neg h2, if_neg (by omega)]

theorem natRange_filter_all {s cg lo K : Nat} (h1 : s ≤ lo) (h2 : lo + K ≤ cg + 1) :
    (natRange lo K).filter (fun g => decide (s ≤ g ∧ g ≤ cg)) = natRange lo K := by
  induction K generalizing lo with
  | zero => rfl
  | succ l ih =>
    show List.filter _ (lo :: _) = _
    rw [List.filter_cons_of_pos (by simp; omega)]
    rw [ih (by omega) (by omega)]
    rfl

theorem natRange_filter_window {s cg lo K : Nat} (h1 : lo ≤ s) (h2 : s ≤ cg + 1)
    (h3 : lo + K = cg + 1) :
    (natRange lo K).filter (fun g => decide (s ≤ g ∧ g ≤ cg)) = natRange s (cg + 1 - s) := by
  induction K generalizing lo with
  | zero =>
    have hs : s = cg + 1 := by omega
    subst hs
    simp [natRange]
  | succ l ih =>
    by_cases h : lo < s
    · show List.filter _ (lo :: _) = _
      rw [List.filter_cons_of_neg (by simp; omega)]
      exact ih (by omega) (by omega)
    · have hlo : lo = s := by omega
      subst hlo
      have := @natRange_filter_all lo cg lo (l + 1) (Nat.le_refl lo) (by omega)
      rw [this]
      congr 1
      omega

/-- On a pool mapping of range shape `[lo, lo+K)` covering the whole active
window, the loop's pool concatenation input is exactly the window cohorts. -/
theorem activePools_map_natRange (C : Nat → List Nat) {lo K cg V : Nat}
    (h1 : lo ≤ cg + 1 - V) (h2 : lo + K = cg + 1) :
    activePools ((natRange lo K).map (fun g => (g, C g))) cg V =
      (natRange (cg + 1 - V) (cg + 1 - (cg + 1 - V))).map C := by
  unfold activePools activeGenerations
  rw [List.filterMap_eq_map_iff_forall_eq_some.mpr]
  intro g hg
  rw [mem_natRange] at hg
  rw [poolLookup_map_natRange, if_pos (by omega)]

/-- On a pool mapping of range shape covering the whole active window, the
spec-side `eligible_parents` contract also concatenates exactly the window
cohorts. -/
theorem eligibleParentsSpec_map_natRange (C : Nat → List Nat) {lo K cg V : Nat}
    (h1 : lo ≤ cg + 1 - V) (h2 : lo + K = cg + 1) :
    eligibleParentsSpec ((natRange lo K).map (fun g => (g, C g))) cg V =
      ((natRange (cg + 1 - V) (cg + 1 - (cg + 1 - V))).map C).flatten := by
  unfold eligibleParentsSpec
  rw [List.filter_map]
  have hc : ((fun p : Nat × List Nat => decide (cg + 1 - V ≤ p.1 ∧ p.1 ≤ cg)) ∘
      fun g => (g, C g)) = fun g => decide (cg + 1 - V ≤ g ∧ g ≤ cg) := rfl
  rw [hc, natRange_filter_window (by omega) (by omega) (by omega), List.map_map]
  rfl

/-! ### Lemmas about the mating sampler -/

theorem getD_mem_of_lt {l : List Nat} {i : Nat} (d : Nat) (h : i < l.length) :
    l.getD i d ∈ l := by
  induction l generalizing i with
  | nil => simp at h
  | cons a t ih =>
    cases i with
    | zero => simp [List.getD]
    | succ k =>
      have hk : k < t.length := by simpa using Nat.lt_of_succ_lt_succ h
      have := ih hk
      simp only [List.getD] at this ⊢
      exact List.mem_cons_of_mem _ this

theorem draw_lt {stream : Nat → Nat} {ctr len : Nat} (h : 0 < len) :
    draw stream ctr len < len := Nat.mod_lt _ h

theorem drawParentPairs_length (stream : Nat → Nat) (pool : List Nat) (n ctr : Nat) :
    (drawParentPairs stream pool n ctr).1.length = n ∧
      (drawParentPairs stream pool n ctr).2.1.length = n := by
  induction n generalizing ctr with
  | zero => exact ⟨rfl, rfl⟩
  | succ k ih =>
    have := ih (ctr + 2)
    simp only [drawParentPairs, List.length_cons]
    omega

theorem drawParentPairs_mem (stream : Nat → Nat) {pool : List Nat} (hp : pool ≠ [])
    (n ctr : Nat) :
    (∀ x ∈ (drawParentPairs stream pool n ctr).1, x ∈ pool) ∧
      (∀ x ∈ (drawParentPairs stream pool n ctr).2.1, x ∈ pool) := by
  have hlen : 0 < pool.length := List.length_pos.mpr hp
  induction n generalizing ctr with
  | zero => exact ⟨by simp [drawParentPairs], by simp [drawParentPairs]⟩
  | succ k ih =>
    obtain ⟨ih1, ih2⟩ := ih (ctr + 2)
    constructor
    · intro x hx
      rcases List.mem_cons.mp hx with h | h
      · subst h; exact getD_mem_of_lt _ (draw_lt hlen)
      · exact ih1 x h
    · intro x hx
      rcases List.mem_cons.mp hx with h | h
      · subst h; exact getD_mem_of_lt _ (draw_lt hlen)
      · exact ih2 x h

theorem redrawSameDams_length (stream : Nat → Nat) (pool : List Nat) :
    ∀ (sires dams : List Nat) (ctr : Nat),
      (redrawSameDams stream pool sires dams ctr).1.length = min sires.length dams.length
  | [], [], _ => rfl
  | [], _ :: _, _ => rfl
  | _ :: _, [], _ => rfl
  | s :: ss, d :: ds, ctr => by
    by_cases h : s = d
    · simp only [redrawSameDams, if_pos h, List.length_cons,
        redrawSameDams_length stream pool ss ds (ctr + 1)]
      omega
    · simp only [redrawSameDams, if_neg h, List.length_cons,
        redrawSameDams_length stream pool ss ds ctr]
      omega

theorem redrawSameDams_mem (stream : Nat → Nat) {pool : List Nat} (hp : pool ≠ []) :
    ∀ (sires dams : List Nat) (ctr : Nat),
      (∀ x ∈ dams, x ∈ pool) →
      ∀ x ∈ (redrawSameDams stream pool sires dams ctr).1, x ∈ pool
  | [], _, _, _ => by intro x hx; simp [redrawSameDams] at hx
  | _ :: _, [], _, _ => by intro x hx; simp [redrawSameDams] at hx
  | s :: ss, d :: ds, ctr, hd => by
    have hlen : 0 < pool.length := List.length_pos.mpr hp
    have htail : ∀ x ∈ ds, x ∈ pool := fun x hx => hd x (List.mem_cons_of_mem _ hx)
    intro x hx
    by_cases h : s = d
    · simp only [redrawSameDams, if_pos h] at hx
      rcases List.mem_cons.mp hx with h2 | h2
      · subst h2; exact getD_mem_of_lt _ (draw_lt hlen)
      · exact redrawSameDams_mem stream hp ss ds (ctr + 1) htail x h2
    · simp only [redrawSameDams, if_neg h] at hx
      rcases List.mem_cons.mp hx with h2 | h2
      · subst h2; exact hd x (List.mem_cons_self _ _)
      · exact redrawSameDams_mem stream hp ss ds ctr htail x h2

theorem resampleDams_some {stream : Nat → Nat} {pool sires : List Nat}
    {fuel : Nat} {dams dams' : List Nat} {ctr ctr' : Nat}
    (h : resampleDams stream pool sires fuel dams ctr = some (dams', ctr')) :
    anySameParent sires dams' = false ∧
      dams'.length = min sires.length dams.length ∨
    anySameParent sires dams' = false ∧ dams' = dams := by
  induction fuel generalizing dams ctr with
  | zero =>
    rw [resampleDams] at h
    by_cases hc : anySameParent sires dams
    · rw [if_pos hc] at h; exact absurd h (by simp)
    · rw [if_neg hc] at h
      simp only [Option.some.injEq, Prod.mk.injEq] at h
      right
      refine ⟨?_, h.1.symm⟩
      rw [← h.1]
      simpa using hc
  | succ k ih =>
    rw [resampleDams] at h
    by_cases hc : anySameParent sires dams
    · rw [if_pos hc] at h
      rcases ih h with h2 | h2
      · left
        refine ⟨h2.1, ?_⟩
        rw [h2.2, redrawSameDams_length]
        omega
      · left
        refine ⟨h2.1, ?_⟩
        rw [h2.2, redrawSameDams_length]
    · rw [if_neg hc] at h
      simp only [Option.some.injEq, Prod.mk.injEq] at h
      right
      refine ⟨?_, h.1.symm⟩
      rw [← h.1]
      simpa using hc

theorem resampleDams_mem {stream : Nat → Nat} {pool sires : List Nat} (hp : pool ≠ [])
    {fuel : Nat} {dams dams' : List Nat} {ctr ctr' : Nat}
    (hd : ∀ x ∈ dams, x ∈ pool)
    (h : resampleDams stream pool sires fuel dams ctr = some (dams', ctr')) :
    ∀ x ∈ dams', x ∈ pool := by
  induction fuel generalizing dams ctr with
  | zero =>
    rw [resampleDams] at h
    by_cases hc : anySameParent sires dams
    · rw [if_pos hc] at h; exact absurd h (by simp)
    · rw [if_neg hc] at h
      simp only [Option.some.injEq, Prod.mk.injEq] at h
      rw [← h.1]; exact hd
  | succ k ih =>
    rw [resampleDams] at h
    by_cases hc : anySameParent sires dams
    · rw [if_pos hc] at h
      exact ih (redrawSameDams_mem stream hp sires dams ctr hd) h
    · rw [if_neg hc] at h
      simp only [Option.some.injEq, Prod.mk.injEq] at h
      rw [← h.1]; exact hd

/-- When the collision check reports no collision, the sire and dam at each
common position differ. -/
theorem anySameParent_false_pointwise :
    ∀ {sires dams : List Nat}, anySameParent sires dams = false →
      ∀ i, i < sires.length → i < dams.length → sires.getD i 0 ≠ dams.getD i 0
  | [], _, _ => by intro i h1 _; simp at h1
  | _ :: _, [], _ => by intro i _ h2; simp at h2
  | s :: ss, d :: ds, h => by
    simp only [anySameParent, List.zip_cons_cons, List.any_cons, Bool.or_eq_false_iff,
      beq_eq_false_iff_ne, ne_eq] at h
    intro i h1 h2
    cases i with
    | zero => simpa using h.1
    | succ k =>
      have hss : anySameParent ss ds = false := by simpa [anySameParent] using h.2
      have := anySameParent_false_pointwise hss k
        (by simpa using Nat.lt_of_succ_lt_succ h1)
        (by simpa using Nat.lt_of_succ_lt_succ h2)
      simpa [List.getD] using this

/-! ### Lemmas about the functional model of numpy slice assignment -/

theorem writeSlice_of_lt {f : Nat → Nat} {start i : Nat} (vals : List Nat)
    (h : i < start) : writeSlice f start vals i = f i := by
  unfold writeSlice
  rw [if_neg (by omega)]

theorem writeSlice_of_ge {f : Nat → Nat} {start i : Nat} {vals : List Nat}
    (h : start + vals.length ≤ i) : writeSlice f start vals i = f i := by
  unfold writeSlice
  rw [if_neg (by omega)]

theorem writeSlice_of_mem {f : Nat → Nat} {start i : Nat} {vals : List Nat}
    (h1 : start ≤ i) (h2 : i < start + vals.length) :
    writeSlice f start vals i = vals.getD (i - start) 0 := by
  unfold writeSlice
  rw [if_pos ⟨h1, h2⟩]

/-! ### The generation-loop invariant -/

/-- Invariant holding at the top of every iteration of the generation loop:
the id cursor counts founders plus generated offspring; the pool mapping is
exactly the index interval `[cg - overlap, cg]` of cohorts; every pooled id is
a positive, already-assigned id; founder records are zeroed; and every
already-generated record has valid, distinct parents older than itself. -/
structure LoopInv (F V : Nat) (S : SimState) : Prop where
  cid_lb : F + 1 ≤ S.currentId
  cid_count : S.currentId = F + S.totalGenerated + 1
  pools_shape : ∃ C : Nat → List Nat,
    S.generationPools =
      (natRange (S.currentGeneration - V)
        (S.currentGeneration + 1 - (S.currentGeneration - V))).map (fun g => (g, C g))
  pools_elems : ∀ p ∈ S.generationPools, ∀ x ∈ p.2, 1 ≤ x ∧ x < S.currentId
  founders_zero : ∀ i < F, S.sires i = 0 ∧ S.dams i = 0
  assigned_ok : ∀ i, F ≤ i → i + 2 ≤ S.currentId →
    S.sires i ≠ 0 ∧ S.dams i ≠ 0 ∧ S.sires i ≠ S.dams i ∧
      S.sires i < i + 1 ∧ S.dams i < i + 1

/-- What one recorded loop iteration guarantees: the pool mapping holds at
most `overlap + 1` cohorts right after register + evict; the eligible-parent
set equals the spec contract `eligible_parents`; every eligible id comes from
a registered cohort inside the window `[g - overlap + 1, g]`; and no cohort
outside `[g - overlap, g]` is registered at all. -/
def SnapGood (V : Nat) (sn : StepSnapshot) : Prop :=
  sn.poolsAfter.length ≤ V + 1 ∧
  sn.eligible = eligibleParentsSpec sn.pools sn.generation V ∧
  (∀ x ∈ sn.eligible, ∃ g ids, poolLookup sn.pools g = some ids ∧ x ∈ ids ∧
      sn.generation + 1 - V ≤ g ∧ g ≤ sn.generation) ∧
  (∀ j ids, poolLookup sn.pools j = some ids → sn.generation - V ≤ j ∧ j ≤ sn.generation)

theorem poolLookup_mem {pools : List (Nat × List Nat)} {g : Nat} {v : List Nat}
    (h : poolLookup pools g = some v) : (g, v) ∈ pools := by
  induction pools with
  | nil => simp [poolLookup] at h
  | cons p rest ih =>
    obtain ⟨k, w⟩ := p
    rw [poolLookup] at h
    by_cases hk : k = g
    · rw [if_pos hk] at h
      subst hk
      cases h
      exact List.mem_cons_self _ _
    · rw [if_neg hk] at h
      exact List.mem_cons_of_mem _ (ih h)

theorem concatArrays?_eq_some {ls : List (List Nat)} {a : List Nat}
    (h : concatArrays? ls = some a) : a = ls.flatten := by
  cases ls with
  | nil => simp [concatArrays?] at h
  | cons x t =>
    rw [concatArrays?] at h
    cases h
    rfl

/-- Every id in the concatenated eligible-parent set belongs to some
registered cohort. -/
theorem available_from_pools {pools : List (Nat × List Nat)} {cg V : Nat}
    {available : List Nat}
    (hca : concatArrays? (activePools pools cg V) = some available) :
    ∀ x ∈ available, ∃ p ∈ pools, x ∈ p.2 := by
  intro x hx
  rw [concatArrays?_eq_some hca, List.mem_flatten] at hx
  obtain ⟨l, hl, hxl⟩ := hx
  rw [activePools, List.mem_filterMap] at hl
  obtain ⟨g, _, hg⟩ := hl
  exact ⟨(g, l), poolLookup_mem hg, hxl⟩

/-- On a window-covering range-shaped pool mapping, the eligible-parent set
the loop concatenates is the window cohorts in index order. -/
theorem available_eq_window (C : Nat → List Nat) {cg V : Nat} {available : List Nat}
    (hca : concatArrays? (activePools
        ((natRange (cg - V) (cg + 1 - (cg - V))).map (fun g => (g, C g))) cg V) =
      some available) :
    available = ((natRange (cg + 1 - V) (cg + 1 - (cg + 1 - V))).map C).flatten := by
  rw [concatArrays?_eq_some hca, activePools_map_natRange C (by omega) (by omega)]

theorem mem_window_flatten {C : Nat → List Nat} {cg V x : Nat}
    (hx : x ∈ ((natRange (cg + 1 - V) (cg + 1 - (cg + 1 - V))).map C).flatten) :
    ∃ g, cg + 1 - V ≤ g ∧ g ≤ cg ∧ x ∈ C g := by
  rw [List.mem_flatten] at hx
  obtain ⟨l, hl, hxl⟩ := hx
  rw [List.mem_map] at hl
  obtain ⟨g, hg, rfl⟩ := hl
  rw [mem_natRange] at hg
  exact ⟨g, hg.1, by omega, hxl⟩

theorem registerAndEvict_mem {pools : List (Nat × List Nat)} {overlap cg' : Nat}
    {newIds : List Nat} {p : Nat × List Nat}
    (h : p ∈ registerAndEvict pools overlap cg' newIds) :
    p ∈ pools ∨ p = (cg', newIds) := by
  rw [registerAndEvict] at h
  by_cases hc : overlap + 1 ≤ cg'
  · rw [if_pos hc] at h
    rw [poolErase] at h
    have := List.mem_of_mem_filter h
    rcases List.mem_append.mp this with h2 | h2
    · exact Or.inl h2
    · exact Or.inr (by simpa using h2)
  · rw [if_neg hc] at h
    rcases List.mem_append.mp h with h2 | h2
    · exact Or.inl h2
    · exact Or.inr (by simpa using h2)

theorem natRange_filter_ne_lo (lo K : Nat) :
    (natRange (lo + 1) K).filter (fun g => decide (g ≠ lo)) = natRange (lo + 1) K := by
  rw [List.filter_eq_self]
  intro g hg
  rw [mem_natRange] at hg
  simp only [decide_eq_true_eq]
  omega

/-- Register + evict sends a range-shaped pool mapping for current generation
`cg` to a range-shaped pool mapping for current generation `cg + 1`, storing
the new cohort at index `cg + 1` and keeping all other cohorts. -/
theorem registerAndEvict_shape (C : Nat → List Nat) (cg V : Nat) (newIds : List Nat) :
    registerAndEvict ((natRange (cg - V) (cg + 1 - (cg - V))).map (fun g => (g, C g)))
        V (cg + 1) newIds =
      (natRange (cg + 1 - V) (cg + 2 - (cg + 1 - V))).map
        (fun g => (g, (fun j => if j = cg + 1 then newIds else C j) g)) := by
  set C' : Nat → List Nat := fun j => if j = cg + 1 then newIds else C j with hC'
  have hmap : (natRange (cg - V) (cg + 1 - (cg - V))).map (fun g => (g, C g)) =
      (natRange (cg - V) (cg + 1 - (cg - V))).map (fun g => (g, C' g)) := by
    apply List.map_congr_left
    intro g hg
    rw [mem_natRange] at hg
    have : g ≠ cg + 1 := by omega
    simp [hC', this]
  have happ : (natRange (cg - V) (cg + 1 - (cg - V))).map (fun g => (g, C' g)) ++
      [(cg + 1, newIds)] =
      (natRange (cg - V) (cg + 1 - (cg - V) + 1)).map (fun g => (g, C' g)) := by
    rw [natRange_succ_last, List.map_append]
    congr 1
    have : cg - V + (cg + 1 - (cg - V)) = cg + 1 := by omega
    rw [this]
    simp [hC']
  rw [registerAndEvict, hmap, happ]
  by_cases hc : V + 1 ≤ cg + 1
  · rw [if_pos hc]
    have hkey : cg + 1 - V - 1 = cg - V := by omega
    rw [poolErase, hkey, List.filter_map]
    have hcomp : ((fun p : Nat × List Nat => decide (p.1 ≠ cg - V)) ∘
        fun g => (g, C' g)) = fun g => decide (g ≠ cg - V) := rfl
    rw [hcomp]
    have hrange : natRange (cg - V) (cg + 1 - (cg - V) + 1) =
        (cg - V) :: natRange (cg - V + 1) (cg + 1 - (cg - V)) := rfl
    rw [hrange, List.filter_cons_of_neg (by simp), natRange_filter_ne_lo]
    have e1 : cg - V + 1 = cg + 1 - V := by omega
    have e2 : cg + 1 - (cg - V) = cg + 2 - (cg + 1 - V) := by omega
    rw [e1, e2]
  · rw [if_neg hc]
    have h1 : cg - V = 0 := by omega
    have h2 : cg + 1 - V = 0 := by omega
    rw [h1, h2]
    have e3 : cg + 1 - 0 + 1 = cg + 2 - 0 := by omega
    rw [e3]

theorem registerAndEvict_shape_len (C : Nat → List Nat) (cg V : Nat) (newIds : List Nat) :
    (registerAndEvict ((natRange (cg - V) (cg + 1 - (cg - V))).map (fun g => (g, C g)))
        V (cg + 1) newIds).length ≤ V + 1 := by
  rw [registerAndEvict_shape, List.length_map, natRange_length]
  omega

/-- One successful loop iteration preserves the loop invariant. -/
theorem stepState_inv {stream : Nat → Nat} {F V nOff rF ctr2 : Nat} {S : SimState}
    {available selDams : List Nat}
    (hInv : LoopInv F V S)
    (hca : concatArrays? (activePools S.generationPools S.currentGeneration V) =
      some available)
    (hne : available ≠ [])
    (hres : resampleDams stream available (drawParentPairs stream available nOff S.ctr).1 rF
      (drawParentPairs stream available nOff S.ctr).2.1
      (drawParentPairs stream available nOff S.ctr).2.2 = some (selDams, ctr2)) :
    LoopInv F V
      (stepState S V nOff (drawParentPairs stream available nOff S.ctr).1 selDams ctr2) := by
  obtain ⟨hlb, hcnt, ⟨C, hshape⟩, helems, hfz, hok⟩ := hInv
  have hselLen : (drawParentPairs stream available nOff S.ctr).1.length = nOff :=
    (drawParentPairs_length _ _ _ _).1
  have hd0Len : (drawParentPairs stream available nOff S.ctr).2.1.length = nOff :=
    (drawParentPairs_length _ _ _ _).2
  have hselMem : ∀ x ∈ (drawParentPairs stream available nOff S.ctr).1, x ∈ available :=
    (drawParentPairs_mem stream hne nOff S.ctr).1
  have hdamMem : ∀ x ∈ selDams, x ∈ available :=
    resampleDams_mem hne (drawParentPairs_mem stream hne nOff S.ctr).2 hres
  have hdamLen : selDams.length = nOff := by
    rcases resampleDams_some hres with ⟨_, h⟩ | ⟨_, h⟩
    · rw [h, hselLen, hd0Len]; omega
    · rw [h]; exact hd0Len
  have hnc : anySameParent (drawParentPairs stream available nOff S.ctr).1 selDams = false := by
    rcases resampleDams_some hres with ⟨h, _⟩ | ⟨h, _⟩ <;> exact h
  have havMem : ∀ x ∈ available, 1 ≤ x ∧ x < S.currentId := by
    intro x hx
    obtain ⟨p, hp, hxp⟩ := available_from_pools hca x hx
    exact helems p hp x hxp
  refine ⟨by show F + 1 ≤ S.currentId + nOff; omega,
    by show S.currentId + nOff = F + (S.totalGenerated + nOff) + 1; omega, ?_, ?_, ?_, ?_⟩
  · refine ⟨fun j => if j = S.currentGeneration + 1 then natRange S.currentId nOff else C j, ?_⟩
    simp only [stepState]
    rw [hshape, registerAndEvict_shape]
  · intro p hp x hx
    show 1 ≤ x ∧ x < S.currentId + nOff
    rcases registerAndEvict_mem hp with h | h
    · have := helems p h x hx
      omega
    · subst h
      have := mem_natRange.mp hx
      omega
  · intro i hi
    simp only [stepState]
    rw [writeSlice_of_lt _ (by omega), writeSlice_of_lt _ (by omega)]
    exact hfz i hi
  · intro i hFi hi2
    simp only [stepState] at hi2 ⊢
    by_cases hold : i + 2 ≤ S.currentId
    · rw [writeSlice_of_lt _ (by omega), writeSlice_of_lt _ (by omega)]
      exact hok i hFi hold
    · have h1 : S.currentId - 1 ≤ i := by omega
      have h2s : i < S.currentId - 1 + (drawParentPairs stream available nOff S.ctr).1.length := by
        rw [hselLen]; omega
      have h2d : i < S.currentId - 1 + selDams.length := by
        rw [hdamLen]; omega
      rw [writeSlice_of_mem h1 h2s, writeSlice_of_mem h1 h2d]
      have hjs : i - (S.currentId - 1) < (drawParentPairs stream available nOff S.ctr).1.length := by
        rw [hselLen]; omega
      have hjd : i - (S.currentId - 1) < selDams.length := by
        rw [hdamLen]; omega
      have hsv := havMem _ (hselMem _ (getD_mem_of_lt 0 hjs))
      have hdv := havMem _ (hdamMem _ (getD_mem_of_lt 0 hjd))
      have hne2 := anySameParent_false_pointwise hnc (i - (S.currentId - 1)) hjs hjd
      refine ⟨by omega, by omega, hne2, by omega, by omega⟩

/-- The observation recorded by one successful loop iteration satisfies the
pool-window guarantees. -/
theorem stepSnap_good {F V nOff : Nat} {S : SimState} {available : List Nat}
    (hInv : LoopInv F V S)
    (hca : concatArrays? (activePools S.generationPools S.currentGeneration V) =
      some available) :
    SnapGood V (stepSnap S V available nOff) := by
  obtain ⟨-, -, ⟨C, hshape⟩, -, -, -⟩ := hInv
  refine ⟨?_, ?_, ?_, ?_⟩
  · show (registerAndEvict S.generationPools V (S.currentGeneration + 1)
      (natRange S.currentId nOff)).length ≤ V + 1
    rw [hshape]
    exact registerAndEvict_shape_len C _ _ _
  · show available = eligibleParentsSpec S.generationPools S.currentGeneration V
    rw [hshape] at hca ⊢
    rw [available_eq_window C hca, eligibleParentsSpec_map_natRange C (by omega) (by omega)]
  · show ∀ x ∈ available, ∃ g ids, poolLookup S.generationPools g = some ids ∧ x ∈ ids ∧
      S.currentGeneration + 1 - V ≤ g ∧ g ≤ S.currentGeneration
    intro x hx
    rw [hshape] at hca
    rw [available_eq_window C hca] at hx
    obtain ⟨g, hg1, hg2, hxg⟩ := mem_window_flatten hx
    refine ⟨g, C g, ?_, hxg, hg1, hg2⟩
    rw [hshape, poolLookup_map_natRange, if_pos (by omega)]
  · show ∀ j ids, poolLookup S.generationPools j = some ids →
      S.currentGeneration - V ≤ j ∧ j ≤ S.currentGeneration
    intro j ids hj
    rw [hshape, poolLookup_map_natRange] at hj
    by_cases hc : S.currentGeneration - V ≤ j ∧
        j < S.currentGeneration - V + (S.currentGeneration + 1 - (S.currentGeneration - V))
    · exact ⟨hc.1, by omega⟩
    · rw [if_neg hc] at hj
      exact absurd hj (by simp)

/-- Master lemma: a finished generation loop started from an invariant state
ends in an invariant state, every recorded iteration satisfies the pool-window
guarantees, and the exit kind matches the id cursor. -/
theorem simLoop_good (stream : Nat → Nat) (N Cs V rF F : Nat) :
    ∀ (fuel : Nat) (S : SimState) (tr : List StepSnapshot) (S' : SimState)
      (tr' : List StepSnapshot) (ek : SimExit),
      LoopInv F V S →
      simLoop stream N Cs V rF fuel S tr = some (LoopDone.finished S' tr' ek) →
      LoopInv F V S' ∧ (∀ sn ∈ tr', sn ∈ tr ∨ SnapGood V sn) ∧
        (ek = SimExit.completed → N + 1 ≤ S'.currentId) ∧
        (ek = SimExit.extinct → S'.currentId ≤ N) := by
  intro fuel
  induction fuel with
  | zero =>
    intro S tr S' tr' ek _ h
    simp only [simLoop] at h
    exact Option.noConfusion h
  | succ k ih =>
    intro S tr S' tr' ek hInv h
    simp only [simLoop] at h
    by_cases hcid : S.currentId ≤ N
    · rw [if_pos hcid] at h
      split at h
      · exact absurd h (by simp)
      · rename_i available hca
        by_cases hlen : available.length = 0
        · rw [if_pos hlen] at h
          injection h with h2
          injection h2 with hS htr hek
          subst hS; subst htr; subst hek
          exact ⟨hInv, fun sn hsn => Or.inl hsn, by simp, fun _ => hcid⟩
        · rw [if_neg hlen] at h
          split at h
          · exact absurd h (by simp)
          · rename_i selDams ctr2 hres
            have hne : available ≠ [] := by
              intro hnil
              rw [hnil] at hlen
              exact hlen rfl
            obtain ⟨inv', htr, hcomp, hext⟩ :=
              ih _ _ _ _ _ (stepState_inv hInv hca hne hres) h
            refine ⟨inv', ?_, hcomp, hext⟩
            intro sn hsn
            rcases htr sn hsn with hmem | hgood
            · rcases List.mem_append.mp hmem with hmem2 | hmem2
              · exact Or.inl hmem2
              · have : sn = stepSnap S V available
                    (min Cs (N - S.currentId + 1)) := by simpa using hmem2
                subst this
                exact Or.inr (stepSnap_good hInv hca)
            · exact Or.inr hgood
    · rw [if_neg hcid] at h
      injection h with h2
      injection h2 with hS htr hek
      subst hS; subst htr; subst hek
      exact ⟨hInv, fun sn hsn => Or.inl hsn, fun _ => by omega, by simp⟩

/-- The loop invariant holds at initialisation. -/
theorem initState_inv (F V : Nat) : LoopInv F V (initState F) := by
  refine ⟨Nat.le_refl _, rfl, ?_, ?_, fun i _ => ⟨rfl, rfl⟩, ?_⟩
  · refine ⟨fun _ => natRange 1 F, ?_⟩
    simp only [initState]
    rw [Nat.zero_sub, Nat.sub_zero]
    rfl
  · intro p hp x hx
    show 1 ≤ x ∧ x < F + 1
    have hp2 : p = (0, natRange 1 F) := by simpa [initState] using hp
    subst hp2
    have := mem_natRange.mp hx
    omega
  · intro i hFi hi2
    show (initState F).sires i ≠ 0 ∧ _
    exact absurd hi2 (by simp [initState]; omega)

/-- Master lemma at the level of `simulatePedigree`: everything the claims
need about a normally-returning run. -/
theorem simulatePedigree_good {stream : Nat → Nat} {N G F a V lf rf : Nat} {r : RunResult}
    (h : outcomeResult (simulatePedigree stream N G F a V lf rf) = some r) :
    (∀ i < F, r.sires i = 0 ∧ r.dams i = 0) ∧
    (∀ i, F ≤ i → i + 2 ≤ r.finalId →
      r.sires i ≠ 0 ∧ r.dams i ≠ 0 ∧ r.sires i ≠ r.dams i ∧
        r.sires i < i + 1 ∧ r.dams i < i + 1) ∧
    r.finalId = F + r.totalGenerated + 1 ∧
    (r.exitKind = SimExit.completed → N + 1 ≤ r.finalId) ∧
    (r.exitKind = SimExit.extinct → r.finalId ≤ N) ∧
    (∀ sn ∈ r.trace, SnapGood V sn) ∧
    r.generationPools.length ≤ V + 1 ∧
    r.reportedCount = N ∧
    r.genotypedIds = tailSlice (natRange 1 N) G := by
  unfold simulatePedigree at h
  split at h
  · exact absurd h (by simp [outcomeResult])
  · exact absurd h (by simp [outcomeResult])
  · rename_i S tr ek hsl
    simp only [outcomeResult] at h
    injection h with h2
    subst h2
    obtain ⟨inv, htr, hcomp, hext⟩ :=
      simLoop_good stream N 100000 V rf F lf (initState F) [] S tr ek
        (initState_inv F V) hsl
    refine ⟨inv.founders_zero, inv.assigned_ok, inv.cid_count, hcomp, hext, ?_, ?_, rfl, rfl⟩
    · intro sn hsn
      rcases htr sn hsn with h2 | h2
      · exact absurd h2 (List.not_mem_nil sn)
      · exact h2
    · obtain ⟨C, hs⟩ := inv.pools_shape
      show S.generationPools.length ≤ V + 1
      rw [hs, List.length_map, natRange_length]
      omega

/-! ### The degenerate one-element pool: the resampling loop never exits -/

/-- With a one-element parent pool, a redraw round leaves some collision in
place: every colliding dam is redrawn to the unique pool element, which is
exactly its sire. -/
theorem redrawSameDams_singleton (stream : Nat → Nat) (p : Nat) :
    ∀ (sires dams : List Nat) (ctr : Nat),
      (∀ s ∈ sires, s = p) →
      anySameParent sires dams = true →
      anySameParent sires (redrawSameDams stream [p] sires dams ctr).1 = true
  | [], dams, ctr => by
    intro _ hcol
    simp [anySameParent] at hcol
  | s :: ss, [], ctr => by
    intro _ hcol
    simp [anySameParent] at hcol
  | s :: ss, d :: ds, ctr => by
    intro hs hcol
    have hsp : s = p := hs s (List.mem_cons_self _ _)
    by_cases hsd : s = d
    · simp only [redrawSameDams, if_pos hsd]
      have hd' : [p].getD (draw stream ctr [p].length) 0 = p := by
        simp [draw, Nat.mod_one, List.getD]
      simp only [anySameParent, List.zip_cons_cons, List.any_cons]
      rw [Bool.or_eq_true_iff]
      left
      rw [hsp, hd']
      exact beq_self_eq_true p
    · simp only [redrawSameDams, if_neg hsd]
      have htail : anySameParent ss ds = true := by
        simp only [anySameParent, List.zip_cons_cons, List.any_cons] at hcol
        rcases Bool.or_eq_true_iff.mp hcol with h | h
        · exact absurd (by simpa using h) hsd
        · exact h
      have := redrawSameDams_singleton stream p ss ds ctr
        (fun x hx => hs x (List.mem_cons_of_mem _ hx)) htail
      simp only [anySameParent, List.zip_cons_cons, List.any_cons]
      rw [Bool.or_eq_true_iff]
      right
      exact this

/-- With a one-element parent pool and an initial collision, the resampling
loop runs out of any amount of fuel: the Python loop never terminates. -/
theorem resampleDams_singleton (stream : Nat → Nat) (p : Nat) :
    ∀ (fuel : Nat) (sires dams : List Nat) (ctr : Nat),
      (∀ s ∈ sires, s = p) →
      anySameParent sires dams = true →
      resampleDams stream [p] sires fuel dams ctr = none := by
  intro fuel
  induction fuel with
  | zero =>
    intro sires dams ctr _ hcol
    rw [resampleDams, if_pos hcol]
  | succ k ih =>
    intro sires dams ctr hs hcol
    rw [resampleDams, if_pos hcol]
    exact ih _ _ _ hs (redrawSameDams_singleton stream p sires dams ctr hs hcol)

/-- The initial draw from a one-element pool collides as soon as at least one
offspring is requested: both parents of the first offspring are the unique
pool element. -/
theorem drawParentPairs_singleton_collide (stream : Nat → Nat) (p n ctr : Nat)
    (hn : 1 ≤ n) :
    anySameParent (drawParentPairs stream [p] n ctr).1
      (drawParentPairs stream [p] n ctr).2.1 = true := by
  cases n with
  | zero => omega
  | succ m =>
    simp [drawParentPairs, anySameParent, draw, Nat.mod_one, List.getD]

/-! ### Decimal rendering and parsing -/

theorem digitChar_facts {d : Nat} (h : d < 10) :
    (Nat.digitChar d).isDigit = true ∧ (Nat.digitChar d).toNat = 48 + d := by
  interval_cases d <;> exact ⟨by decide, by decide⟩

theorem isDigit_ne {c : Char} (h : c.isDigit = true) : c ≠ ' ' ∧ c ≠ '\n' := by
  constructor
  · intro e
    rw [e] at h
    exact absurd h (by decide)
  · intro e
    rw [e] at h
    exact absurd h (by decide)

theorem natDecimal_ne_nil (n : Nat) : natDecimal n ≠ [] := by
  rw [natDecimal]
  by_cases h : n < 10
  · rw [dif_pos h]
    exact List.cons_ne_nil _ _
  · rw [dif_neg h]
    simp

theorem natDecimal_all_digits (n : Nat) : ∀ c ∈ natDecimal n, c.isDigit = true := by
  induction n using Nat.strong_induction_on with
  | _ n ih =>
    rw [natDecimal]
    by_cases h : n < 10
    · rw [dif_pos h]
      intro c hc
      rw [List.mem_singleton] at hc
      subst hc
      exact (digitChar_facts h).1
    · rw [dif_neg h]
      intro c hc
      rcases List.mem_append.mp hc with h2 | h2
      · exact ih (n / 10) (Nat.div_lt_self (by omega) (by omega)) c h2
      · rw [List.mem_singleton] at h2
        subst h2
        exact (digitChar_facts (Nat.mod_lt _ (by omega))).1

theorem natDecimal_foldl (n : Nat) :
    (natDecimal n).foldl (fun a c => a * 10 + (c.toNat - 48)) 0 = n := by
  induction n using Nat.strong_induction_on with
  | _ n ih =>
    rw [natDecimal]
    by_cases h : n < 10
    · rw [dif_pos h]
      show 0 * 10 + ((Nat.digitChar n).toNat - 48) = n
      rw [(digitChar_facts h).2]
      omega
    · rw [dif_neg h]
      rw [List.foldl_append]
      rw [ih (n / 10) (Nat.div_lt_self (by omega) (by omega))]
      show n / 10 * 10 + ((Nat.digitChar (n % 10)).toNat - 48) = n
      rw [(digitChar_facts (Nat.mod_lt _ (by omega))).2]
      omega

theorem decToNat?_natDecimal (n : Nat) : decToNat? (natDecimal n) = some n := by
  unfold decToNat?
  rw [if_neg (by simpa [List.isEmpty_iff] using natDecimal_ne_nil n)]
  rw [if_pos (List.all_eq_true.mpr (natDecimal_all_digits n))]
  rw [natDecimal_foldl]

theorem natDecimal_length (n : Nat) :
    (natDecimal n).length = if n < 10 then 1 else (natDecimal (n / 10)).length + 1 := by
  by_cases h : n < 10
  · rw [natDecimal, dif_pos h, if_pos h]
    rfl
  · rw [natDecimal, dif_neg h, if_neg h]
    simp

theorem natDecimal_length_mono {m n : Nat} (h : m ≤ n) :
    (natDecimal m).length ≤ (natDecimal n).length := by
  induction n using Nat.strong_induction_on generalizing m with
  | _ n ih =>
    have hm2 := natDecimal_length m
    have hn2 := natDecimal_length n
    by_cases hn : n < 10
    · have hm : m < 10 := by omega
      rw [hm2, hn2, if_pos hm, if_pos hn]
    · rw [hn2, if_neg hn]
      by_cases hm : m < 10
      · rw [hm2, if_pos hm]
        omega
      · rw [hm2, if_neg hm]
        have := ih (n / 10) (Nat.div_lt_self (by omega) (by omega))
          (Nat.div_le_div_right h)
        omega

/-! ### Splitting on a separator character -/

theorem splitOnChar_ne_nil (c : Char) (l : List Char) : splitOnChar c l ≠ [] := by
  induction l with
  | nil => simp [splitOnChar]
  | cons a rest ih =>
    rw [splitOnChar]
    by_cases h : a = c
    · rw [if_pos h]
      simp
    · rw [if_neg h]
      cases hs : splitOnChar c rest with
      | nil => simp
      | cons f t => simp

theorem splitOnChar_no_sep (c : Char) (l : List Char) (hl : ∀ x ∈ l, x ≠ c) :
    splitOnChar c l = [l] := by
  induction l with
  | nil => rfl
  | cons a rest ih =>
    rw [splitOnChar, if_neg (hl a (List.mem_cons_self _ _))]
    rw [ih (fun x hx => hl x (List.mem_cons_of_mem _ hx))]

theorem splitOnChar_append (c : Char) (l r : List Char) (hl : ∀ x ∈ l, x ≠ c) :
    splitOnChar c (l ++ c :: r) = l :: splitOnChar c r := by
  induction l with
  | nil =>
    show splitOnChar c (c :: r) = [] :: splitOnChar c r
    rw [splitOnChar, if_pos rfl]
  | cons a rest ih =>
    show splitOnChar c (a :: (rest ++ c :: r)) = _
    rw [splitOnChar, if_neg (hl a (List.mem_cons_self _ _))]
    rw [ih (fun x hx => hl x (List.mem_cons_of_mem _ hx))]

/-- Splitting a newline-terminated concatenation of newline-free lines
recovers the lines, plus the empty trailing piece. -/
theorem splitOnChar_flatten (c : Char) :
    ∀ (ls : List (List Char)), (∀ l ∈ ls, ∀ x ∈ l, x ≠ c) →
      splitOnChar c ((ls.map (fun l => l ++ [c])).flatten) = ls ++ [[]] := by
  intro ls
  induction ls with
  | nil => intro _; rfl
  | cons l rest ih =>
    intro hc
    simp only [List.map_cons, List.flatten_cons]
    rw [List.append_assoc]
    show splitOnChar c (l ++ c :: (List.map (fun l => l ++ [c]) rest).flatten) = _
    rw [splitOnChar_append c l _ (hc l (List.mem_cons_self _ _))]
    rw [ih (fun x hx => hc x (List.mem_cons_of_mem _ hx))]
    rfl

/-! ### Round-trip of the two exports -/

theorem pedLine_no_sep (t : Nat × Nat × Nat) :
    ∀ x ∈ pedLine t, x ≠ '\n' := by
  intro x hx
  unfold pedLine at hx
  rcases List.mem_append.mp hx with h | h
  · exact (isDigit_ne (natDecimal_all_digits _ x h)).2
  · rcases List.mem_cons.mp h with h2 | h2
    · subst h2; decide
    · rcases List.mem_append.mp h2 with h3 | h3
      · exact (isDigit_ne (natDecimal_all_digits _ x h3)).2
      · rcases List.mem_cons.mp h3 with h4 | h4
        · subst h4; decide
        · exact (isDigit_ne (natDecimal_all_digits _ x h4)).2

theorem parsedTriple_pedLine (t : Nat × Nat × Nat) :
    parsedTriple (pedLine t) = some t := by
  unfold parsedTriple pedLine
  have hsp : splitOnChar ' ' (natDecimal t.1 ++ ' ' ::
      (natDecimal t.2.1 ++ ' ' :: natDecimal t.2.2)) =
      natDecimal t.1 :: natDecimal t.2.1 :: [natDecimal t.2.2] := by
    rw [splitOnChar_append _ _ _
      (fun x hx => (isDigit_ne (natDecimal_all_digits _ x hx)).1)]
    rw [splitOnChar_append _ _ _
      (fun x hx => (isDigit_ne (natDecimal_all_digits _ x hx)).1)]
    rw [splitOnChar_no_sep _ _
      (fun x hx => (isDigit_ne (natDecimal_all_digits _ x hx)).1)]
  rw [hsp]
  simp only [List.map_cons, List.map_nil, decToNat?_natDecimal]

theorem genoLine_no_sep (p : Nat × Nat) : ∀ x ∈ genoLine p, x ≠ '\n' := by
  intro x hx
  unfold genoLine at hx
  rcases List.mem_append.mp hx with h | h
  · exact (isDigit_ne (natDecimal_all_digits _ x h)).2
  · rcases List.mem_cons.mp h with h2 | h2
    · subst h2; decide
    · exact (isDigit_ne (natDecimal_all_digits _ x h2)).2

theorem parsedPair_genoLine (p : Nat × Nat) : parsedPair (genoLine p) = some p := by
  unfold parsedPair genoLine
  have hsp : splitOnChar ' ' (natDecimal p.1 ++ ' ' :: natDecimal p.2) =
      natDecimal p.1 :: [natDecimal p.2] := by
    rw [splitOnChar_append _ _ _
      (fun x hx => (isDigit_ne (natDecimal_all_digits _ x hx)).1)]
    rw [splitOnChar_no_sep _ _
      (fun x hx => (isDigit_ne (natDecimal_all_digits _ x hx)).1)]
  rw [hsp]
  simp only [List.map_cons, List.map_nil, decToNat?_natDecimal]

theorem parseTripleLines_map (rows : List (Nat × Nat × Nat)) :
    parseTripleLines (rows.map pedLine ++ [[]]) = some rows := by
  induction rows with
  | nil => rfl
  | cons t rest ih =>
    show parseTripleLines (pedLine t :: (rest.map pedLine ++ [[]])) = _
    cases hL : rest.map pedLine ++ [[]] with
    | nil => exact absurd hL (by simp)
    | cons m L' =>
      rw [parseTripleLines]
      rw [← hL, ih, parsedTriple_pedLine]

theorem parsePairLines_map (rows : List (Nat × Nat)) :
    parsePairLines (rows.map genoLine ++ [[]]) = some rows := by
  induction rows with
  | nil => rfl
  | cons t rest ih =>
    show parsePairLines (genoLine t :: (rest.map genoLine ++ [[]])) = _
    cases hL : rest.map genoLine ++ [[]] with
    | nil => exact absurd hL (by simp)
    | cons m L' =>
      rw [parsePairLines]
      rw [← hL, ih, parsedPair_genoLine]

/-- Round trip of the pedigree export, for any list of rows. -/
theorem parsePedFile_roundTrip (rows : List (Nat × Nat × Nat)) :
    parsePedFile (pedigreeFile rows) = some rows := by
  unfold parsePedFile pedigreeFile
  show parseTripleLines (splitOnChar '\n' (pedFileChars rows)) = some rows
  unfold pedFileChars
  have hmm : rows.map (fun t => pedLine t ++ ['\n']) =
      (rows.map pedLine).map (fun l => l ++ ['\n']) := by
    rw [List.map_map]
    rfl
  rw [hmm, splitOnChar_flatten '\n' (rows.map pedLine) ?hsep]
  case hsep =>
    intro l hl x hx
    obtain ⟨t, -, rfl⟩ := List.mem_map.mp hl
    exact pedLine_no_sep t x hx
  exact parseTripleLines_map rows

/-- Round trip of the genotyped cross-reference export, for any id list. -/
theorem parseGenoFile_roundTrip (ids : List Nat) :
    parseGenoFile (genotypedFile ids) = some (ids.map (fun i => (i, i))) := by
  unfold parseGenoFile genotypedFile
  show parsePairLines (splitOnChar '\n'
    (((genoRows ids).map (fun p => genoLine p ++ ['\n'])).flatten)) = _
  have hmm : (genoRows ids).map (fun p => genoLine p ++ ['\n']) =
      ((genoRows ids).map genoLine).map (fun l => l ++ ['\n']) := by
    rw [List.map_map]
    rfl
  rw [hmm, splitOnChar_flatten '\n' ((genoRows ids).map genoLine) ?hsep]
  case hsep =>
    intro l hl x hx
    obtain ⟨p, -, rfl⟩ := List.mem_map.mp hl
    exact genoLine_no_sep p x hx
  rw [parsePairLines_map (genoRows ids)]
  rfl

/-! ### Shape of the genotype-file lines -/

theorem foldl_max_le (l : List Nat) :
    ∀ (a : Nat), a ≤ l.foldl max a ∧ ∀ x ∈ l, x ≤ l.foldl max a := by
  induction l with
  | nil =>
    intro a
    exact ⟨Nat.le_refl _, by simp⟩
  | cons b t ih =>
    intro a
    obtain ⟨h1, h2⟩ := ih (max a b)
    refine ⟨Nat.le_trans (Nat.le_max_left a b) h1, ?_⟩
    intro x hx
    rcases List.mem_cons.mp hx with h | h
    · rw [h]
      exact Nat.le_trans (Nat.le_max_right a b) h1
    · exact h2 x h

theorem le_idsMax (ids : List Nat) (x : Nat) (hx : x ∈ ids) : x ≤ idsMax ids :=
  (foldl_max_le ids 0).2 x hx

theorem zfill_length {w : Nat} {l : List Char} (h : l.length ≤ w) :
    (zfill w l).length = w := by
  simp only [zfill, List.length_append, List.length_replicate]
  omega

theorem zfill_digits (w i : Nat) : ∀ c ∈ zfill w (natDecimal i), c.isDigit = true := by
  intro c hc
  rcases List.mem_append.mp hc with h | h
  · rw [List.eq_of_mem_replicate h]
    decide
  · exact natDecimal_all_digits i c h

theorem genoSnpRow_length (stream : Nat → Nat) (base nChunk r nSnps : Nat) :
    (genoSnpRow stream base nChunk r nSnps).length = nSnps := by
  rw [genoSnpRow, List.length_map, natRange_length]

theorem genoSnpRow_mem (stream : Nat → Nat) (base nChunk r nSnps : Nat) :
    ∀ ch ∈ genoSnpRow stream base nChunk r nSnps,
      ch = '0' ∨ ch = '1' ∨ ch = '2' := by
  intro ch hch
  obtain ⟨i, -, rfl⟩ := List.mem_map.mp hch
  have h3 : stream (base + i * nChunk + r) % 3 < 3 := Nat.mod_lt _ (by omega)
  have hv : stream (base + i * nChunk + r) % 3 = 0 ∨
      stream (base + i * nChunk + r) % 3 = 1 ∨
      stream (base + i * nChunk + r) % 3 = 2 := by omega
  rcases hv with h | h | h <;> rw [h]
  · exact Or.inl (by decide)
  · exact Or.inr (Or.inl (by decide))
  · exact Or.inr (Or.inr (by decide))

theorem chunkLines_shape (stream : Nat → Nat) (base nChunk nSnps w : Nat) :
    ∀ (l : List Nat) (r0 : Nat) (line : List Char),
      line ∈ chunkLines stream base nChunk nSnps w l r0 →
      ∃ i ∈ l, ∃ g : List Char,
        line = zfill w (natDecimal i) ++ ' ' :: g ∧ g.length = nSnps ∧
        ∀ ch ∈ g, ch = '0' ∨ ch = '1' ∨ ch = '2'
  | [], r0, line => by
    intro hmem
    simp [chunkLines] at hmem
  | i :: rest, r0, line => by
    intro hmem
    rw [chunkLines] at hmem
    rcases List.mem_cons.mp hmem with h | h
    · exact ⟨i, List.mem_cons_self _ _, genoSnpRow stream base nChunk r0 nSnps,
        h, genoSnpRow_length stream base nChunk r0 nSnps,
        genoSnpRow_mem stream base nChunk r0 nSnps⟩
    · obtain ⟨j, hj, g, hg⟩ :=
        chunkLines_shape stream base nChunk nSnps w rest (r0 + 1) line h
      exact ⟨j, List.mem_cons_of_mem _ hj, g, hg⟩

theorem genoChunkLines_shape (stream : Nat → Nat) (nSnps w : Nat) :
    ∀ (n : Nat) (l : List Nat), l.length ≤ n → ∀ (base : Nat) (line : List Char),
      line ∈ genoChunkLines stream nSnps w l base →
      ∃ i ∈ l, ∃ g : List Char,
        line = zfill w (natDecimal i) ++ ' ' :: g ∧ g.length = nSnps ∧
        ∀ ch ∈ g, ch = '0' ∨ ch = '1' ∨ ch = '2' := by
  intro n
  induction n with
  | zero =>
    intro l hl base line hmem
    have hnil : l = [] := List.eq_nil_of_length_eq_zero (by omega)
    subst hnil
    rw [genoChunkLines] at hmem
    exact absurd hmem (List.not_mem_nil _)
  | succ k ih =>
    intro l hl base line hmem
    cases l with
    | nil =>
      rw [genoChunkLines] at hmem
      exact absurd hmem (List.not_mem_nil _)
    | cons i rest =>
      rw [genoChunkLines] at hmem
      rcases List.mem_append.mp hmem with h | h
      · obtain ⟨j, hj, g, hg⟩ := chunkLines_shape stream _ _ nSnps w _ 0 line h
        exact ⟨j, List.take_subset _ _ hj, g, hg⟩
      · obtain ⟨j, hj, g, hg⟩ := ih ((i :: rest).drop 10000)
          (by simp only [List.length_drop, List.length_cons] at hl ⊢; omega) _ line h
        exact ⟨j, List.drop_subset _ _ hj, g, hg⟩

theorem headD_mem {α : Type} {l : List α} (d : α) (h : l ≠ []) : l.headD d ∈ l := by
  cases l with
  | nil => exact absurd rfl h
  | cons a t => exact List.mem_cons_self _ _

/-- The genotype file of a non-empty id list has at least one line. -/
theorem genoChunkLines_ne_nil (stream : Nat → Nat) (nSnps w : Nat)
    (i : Nat) (rest : List Nat) (base : Nat) :
    genoChunkLines stream nSnps w (i :: rest) base ≠ [] := by
  rw [genoChunkLines]
  rw [show (10000 : Nat) = 9999 + 1 from rfl, List.take_succ_cons]
  rw [chunkLines]
  exact List.cons_ne_nil _ _

theorem head?_mem {l : List Char} {c : Char} (h : l.head? = some c) : c ∈ l := by
  cases l with
  | nil => exact absurd h (by simp)
  | cons a t =>
    simp only [List.head?_cons, Option.some.injEq] at h
    rw [← h]
    exact List.mem_cons_self _ _

/-- Splitting the genotype file on newlines recovers exactly its lines (plus
the empty piece after the final newline). -/
theorem genotypesFile_split (stream : Nat → Nat) (ids : List Nat) (nSnps : Nat) :
    splitOnChar '\n' (genotypesFile stream ids nSnps).data =
      genoChunkLines stream nSnps (natDecimal (idsMax ids)).length ids 0 ++ [[]] := by
  unfold genotypesFile
  apply splitOnChar_flatten
  intro l hl x hx
  obtain ⟨i, -, g, hline, -, hgmem⟩ := genoChunkLines_shape stream nSnps
    (natDecimal (idsMax ids)).length ids.length ids (Nat.le_refl _) 0 l hl
  rw [hline] at hx
  rcases List.mem_append.mp hx with h | h
  · exact (isDigit_ne (zfill_digits _ _ _ h)).2
  · rcases List.mem_cons.mp h with h2 | h2
    · subst h2
      decide
    · rcases hgmem x h2 with h3 | h3 | h3 <;> subst h3 <;> decide

/-! ### Claim theorems -/

/-- C1: for every run of `simulate_overlapping_generations_pedigree` whose
generation loop reaches the target (`current_id > n_individuals`, that is a
normal `completed` return), every individual with index `< n_founders` has
`sire = dam = 0`, and every individual with index `≥ n_founders` (up to the
`n_individuals` produced) has `sire ≠ 0`, `dam ≠ 0`, `sire ≠ dam`, and both
parents strictly below its own id `index + 1`. -/
theorem c1_parent_validity {stream : Nat → Nat} {N G F a V lf rf : Nat}
    {r : RunResult}
    (h : outcomeResult (simulatePedigree stream N G F a V lf rf) = some r)
    (hc : r.exitKind = SimExit.completed) :
    (∀ i < F, r.sires i = 0 ∧ r.dams i = 0) ∧
    (∀ i, F ≤ i → i < N →
      r.sires i ≠ 0 ∧ r.dams i ≠ 0 ∧ r.sires i ≠ r.dams i ∧
        r.sires i < i + 1 ∧ r.dams i < i + 1) := by
  obtain ⟨hfz, hok, hcnt, hcomp, -, -, -, -, -⟩ := simulatePedigree_good h
  refine ⟨hfz, fun i hFi hiN => hok i hFi ?_⟩
  have := hcomp hc
  omega

theorem c1_parent_validity_witness :
    outcomeResult (simulatePedigree (fun n => n % 2) 3 1 2 8 1 5 5) =
      some (runD (simulatePedigree (fun n => n % 2) 3 1 2 8 1 5 5)) ∧
    (runD (simulatePedigree (fun n => n % 2) 3 1 2 8 1 5 5)).exitKind =
      SimExit.completed ∧
    (runD (simulatePedigree (fun n => n % 2) 3 1 2 8 1 5 5)).sires 0 = 0 ∧
    (runD (simulatePedigree (fun n => n % 2) 3 1 2 8 1 5 5)).sires 2 ≠ 0 ∧
    (runD (simulatePedigree (fun n => n % 2) 3 1 2 8 1 5 5)).sires 2 ≠
      (runD (simulatePedigree (fun n => n % 2) 3 1 2 8 1 5 5)).dams 2 := by
  have h : outcomeResult (simulatePedigree (fun n => n % 2) 3 1 2 8 1 5 5) =
      some (runD (simulatePedigree (fun n => n % 2) 3 1 2 8 1 5 5)) := rfl
  have hc : (runD (simulatePedigree (fun n => n % 2) 3 1 2 8 1 5 5)).exitKind =
      SimExit.completed := rfl
  have hmain := c1_parent_validity h hc
  exact ⟨h, hc, (hmain.1 0 (by omega)).1, (hmain.2 2 (by omega) (by omega)).1,
    (hmain.2 2 (by omega) (by omega)).2.2.1⟩

/-- C2: the spec requires the mating sampler to fail with an explicit
"pool too small" error when the parent pool has exactly one element; the code
instead re-draws the unique pool element forever.  Formally: with
`n_founders = 1`, any target `n_individuals ≥ 2` and any overlap `≥ 1`, the
run returns `none` for every amount of loop and resampling fuel — the
resampling loop never terminates, and no error is ever raised. -/
theorem c2_degenerate_pool_loops_forever (stream : Nat → Nat)
    (N G a V lf rf : Nat) (hN : 2 ≤ N) (hV : 1 ≤ V) :
    simulatePedigree stream N G 1 a V lf rf = none := by
  have hca : concatArrays? (activePools [(0, natRange 1 1)] 0 V) = some [1] := by
    unfold activePools activeGenerations
    rw [show 0 + 1 - V = 0 from by omega]
    rfl
  have hloop : simLoop stream N 100000 V rf lf (initState 1) [] = none := by
    cases lf with
    | zero => rfl
    | succ k =>
      simp only [simLoop, initState]
      rw [if_pos (show 1 + 1 ≤ N from hN)]
      split
      · rename_i heq
        rw [hca] at heq
        exact Option.noConfusion heq
      · rename_i available heq
        rw [hca] at heq
        injection heq with h2
        subst h2
        rw [if_neg (by simp)]
        split
        · rfl
        · rename_i selDams ctr2 heq2
          have hs : ∀ s ∈ (drawParentPairs stream [1]
              (min 100000 (N - (1 + 1) + 1)) 0).1, s = 1 := fun s hsm =>
            List.mem_singleton.mp
              ((drawParentPairs_mem stream (by simp) _ _).1 s hsm)
          have hcol := drawParentPairs_singleton_collide stream 1
            (min 100000 (N - (1 + 1) + 1)) 0 (by omega)
          rw [resampleDams_singleton stream 1 rf _ _ _ hs hcol] at heq2
          exact Option.noConfusion heq2
  unfold simulatePedigree
  rw [hloop]

theorem c2_degenerate_pool_loops_forever_witness :
    2 ≤ 2 ∧ 1 ≤ 1 ∧ simulatePedigree (fun _ => 0) 2 1 1 8 1 5 7 = none :=
  ⟨by omega, by omega,
    c2_degenerate_pool_loops_forever (fun _ => 0) 2 1 8 1 5 7 (by omega) (by omega)⟩

/-- C3: after every iteration of the generation loop (register of the new
cohort followed immediately by the eviction of generation
`current_generation - generation_overlap - 1` if present), the generation-pool
mapping holds at most `overlap + 1` cohorts; the final mapping obeys the same
bound. -/
theorem c3_pool_bound {stream : Nat → Nat} {N G F a V lf rf : Nat} {r : RunResult}
    (h : outcomeResult (simulatePedigree stream N G F a V lf rf) = some r) :
    (∀ sn ∈ r.trace, sn.poolsAfter.length ≤ V + 1) ∧
      r.generationPools.length ≤ V + 1 := by
  obtain ⟨-, -, -, -, -, htr, hlen, -, -⟩ := simulatePedigree_good h
  exact ⟨fun sn hsn => (htr sn hsn).1, hlen⟩

theorem c3_pool_bound_witness :
    outcomeResult (simulatePedigree (fun n => n % 2) 4 1 2 8 1 5 5) =
      some (runD (simulatePedigree (fun n => n % 2) 4 1 2 8 1 5 5)) ∧
    ((runD (simulatePedigree (fun n => n % 2) 4 1 2 8 1 5 5)).trace.headD default ∈
      (runD (simulatePedigree (fun n => n % 2) 4 1 2 8 1 5 5)).trace) ∧
    ((runD (simulatePedigree (fun n => n % 2) 4 1 2 8 1 5 5)).trace.headD
      default).poolsAfter.length ≤ 1 + 1 ∧
    (runD (simulatePedigree (fun n => n % 2) 4 1 2 8 1 5 5)).generationPools.length ≤
      1 + 1 := by
  have h : outcomeResult (simulatePedigree (fun n => n % 2) 4 1 2 8 1 5 5) =
      some (runD (simulatePedigree (fun n => n % 2) 4 1 2 8 1 5 5)) := rfl
  have hmem : (runD (simulatePedigree (fun n => n % 2) 4 1 2 8 1 5 5)).trace.headD
      default ∈ (runD (simulatePedigree (fun n => n % 2) 4 1 2 8 1 5 5)).trace := by
    decide
  have hmain := c3_pool_bound h
  exact ⟨h, hmem, hmain.1 _ hmem, hmain.2⟩

/-- C4: at every generation step at current generation `g`, the
eligible-parent set equals the spec contract (concatenation of the registered
cohorts with index in `[g - overlap + 1, g]`); every eligible id comes from a
registered cohort in that window; every registered cohort has index
`≥ g - overlap`; and no eligible id lies in a registered cohort of index
`< g - overlap`. -/
theorem c4_eligible_window {stream : Nat → Nat} {N G F a V lf rf : Nat}
    {r : RunResult}
    (h : outcomeResult (simulatePedigree stream N G F a V lf rf) = some r) :
    ∀ sn ∈ r.trace,
      sn.eligible = eligibleParentsSpec sn.pools sn.generation V ∧
      (∀ x ∈ sn.eligible, ∃ g ids, poolLookup sn.pools g = some ids ∧ x ∈ ids ∧
        sn.generation + 1 - V ≤ g ∧ g ≤ sn.generation) ∧
      (∀ j ids, poolLookup sn.pools j = some ids → sn.generation - V ≤ j) ∧
      (∀ x ∈ sn.eligible, ∀ j ids, poolLookup sn.pools j = some ids →
        j + V < sn.generation → x ∉ ids) := by
  obtain ⟨-, -, -, -, -, htr, -, -, -⟩ := simulatePedigree_good h
  intro sn hsn
  obtain ⟨-, he, hprov, hwin⟩ := htr sn hsn
  refine ⟨he, hprov, fun j ids hj => (hwin j ids hj).1, ?_⟩
  intro x _ j ids hj hjV _
  have := (hwin j ids hj).1
  omega

theorem c4_eligible_window_witness :
    outcomeResult (simulatePedigree (fun n => n % 2) 4 1 2 8 2 5 5) =
      some (runD (simulatePedigree (fun n => n % 2) 4 1 2 8 2 5 5)) ∧
    ((runD (simulatePedigree (fun n => n % 2) 4 1 2 8 2 5 5)).trace.headD default ∈
      (runD (simulatePedigree (fun n => n % 2) 4 1 2 8 2 5 5)).trace) ∧
    ((runD (simulatePedigree (fun n => n % 2) 4 1 2 8 2 5 5)).trace.headD
        default).eligible =
      eligibleParentsSpec
        ((runD (simulatePedigree (fun n => n % 2) 4 1 2 8 2 5 5)).trace.headD
          default).pools
        ((runD (simulatePedigree (fun n => n % 2) 4 1 2 8 2 5 5)).trace.headD
          default).generation 2 := by
  have h : outcomeResult (simulatePedigree (fun n => n % 2) 4 1 2 8 2 5 5) =
      some (runD (simulatePedigree (fun n => n % 2) 4 1 2 8 2 5 5)) := rfl
  have hmem : (runD (simulatePedigree (fun n => n % 2) 4 1 2 8 2 5 5)).trace.headD
      default ∈ (runD (simulatePedigree (fun n => n % 2) 4 1 2 8 2 5 5)).trace := by
    decide
  exact ⟨h, hmem, (c4_eligible_window h _ hmem).1⟩

/-- C5 counterexample: with `n_founders = 0` the eligible pool is empty at the
very first iteration, before `current_id > n_individuals`; the run terminates
early without an exception (a normal return with exit kind `extinct`), but the
code's completion message (line 107) announces the requested
`n_individuals = 3` even though `0` individuals were actually produced — the
actual count is not what is reported, refuting the claim as stated. -/
theorem c5_reports_requested_count_counterexample :
    outcomeResult (simulatePedigree (fun _ => 0) 3 1 0 8 1 5 5) =
      some (runD (simulatePedigree (fun _ => 0) 3 1 0 8 1 5 5)) ∧
    (runD (simulatePedigree (fun _ => 0) 3 1 0 8 1 5 5)).exitKind =
      SimExit.extinct ∧
    (runD (simulatePedigree (fun _ => 0) 3 1 0 8 1 5 5)).totalGenerated = 0 ∧
    (runD (simulatePedigree (fun _ => 0) 3 1 0 8 1 5 5)).reportedCount = 3 ∧
    0 < 3 :=
  ⟨rfl, rfl, rfl, rfl, by omega⟩

/-- C5 (amended): for every run in which the eligible-parent pool becomes
empty before `current_id > n_individuals`, the generator terminates early
without raising an exception (a normal return with exit kind `extinct`), but
it reports the requested count `n_individuals` in its completion message while
the actual count of individuals produced (`n_founders + total_generated`) is
strictly less than `n_individuals`. -/
theorem c5_early_termination_reports_requested {stream : Nat → Nat}
    {N G F a V lf rf : Nat} {r : RunResult}
    (h : outcomeResult (simulatePedigree stream N G F a V lf rf) = some r)
    (he : r.exitKind = SimExit.extinct) :
    r.reportedCount = N ∧ F + r.totalGenerated < N := by
  obtain ⟨-, -, hcnt, -, hext, -, -, hrep, -⟩ := simulatePedigree_good h
  have := hext he
  exact ⟨hrep, by omega⟩

theorem c5_early_termination_reports_requested_witness :
    outcomeResult (simulatePedigree (fun _ => 0) 3 1 0 8 1 5 5) =
      some (runD (simulatePedigree (fun _ => 0) 3 1 0 8 1 5 5)) ∧
    (runD (simulatePedigree (fun _ => 0) 3 1 0 8 1 5 5)).exitKind =
      SimExit.extinct ∧
    (runD (simulatePedigree (fun _ => 0) 3 1 0 8 1 5 5)).reportedCount = 3 ∧
    0 + (runD (simulatePedigree (fun _ => 0) 3 1 0 8 1 5 5)).totalGenerated < 3 := by
  have h : outcomeResult (simulatePedigree (fun _ => 0) 3 1 0 8 1 5 5) =
      some (runD (simulatePedigree (fun _ => 0) 3 1 0 8 1 5 5)) := rfl
  have he : (runD (simulatePedigree (fun _ => 0) 3 1 0 8 1 5 5)).exitKind =
      SimExit.extinct := rfl
  have hmain := c5_early_termination_reports_requested h he
  exact ⟨h, he, hmain.1, hmain.2⟩

/-- C8 counterexample: a configuration with `n_genotyped = 5 >
n_individuals = 3` is not rejected at all — the run proceeds through normal
generation, completes, and silently returns the whole population as the
genotyped cohort, refuting "rejects the configuration with an error before any
pedigree generation starts". -/
theorem c8_no_rejection_counterexample :
    outcomeResult (simulatePedigree (fun n => n % 2) 3 5 2 8 1 5 5) =
      some (runD (simulatePedigree (fun n => n % 2) 3 5 2 8 1 5 5)) ∧
    (runD (simulatePedigree (fun n => n % 2) 3 5 2 8 1 5 5)).exitKind =
      SimExit.completed ∧
    (runD (simulatePedigree (fun n => n % 2) 3 5 2 8 1 5 5)).genotypedIds =
      [1, 2, 3] ∧
    3 < 5 :=
  ⟨rfl, rfl, by decide, by omega⟩

/-- C8 (amended): the program performs no configuration validation before
generation.  A `generation_overlap = 0` run fails only inside the first
generation-loop iteration — `np.concatenate` on an empty list of arrays —
after the founders have been created, not before generation starts; and the
generation loop is entirely insensitive to `n_genotyped` (so
`n_genotyped > n_individuals` is never rejected: it only changes the derived
genotyped cohort). -/
theorem c8_rejects_nothing_amended :
    (∀ (stream : Nat → Nat) (N G F a lf rf : Nat), 1 ≤ lf → F + 1 ≤ N →
      simulatePedigree stream N G F a 0 lf rf = some SimOutcome.valueError) ∧
    (∀ (stream : Nat → Nat) (N G G' F a V lf rf : Nat),
      Option.map eraseGenotyped (simulatePedigree stream N G F a V lf rf) =
        Option.map eraseGenotyped (simulatePedigree stream N G' F a V lf rf)) := by
  constructor
  · intro stream N G F a lf rf hlf hF
    cases lf with
    | zero => omega
    | succ k =>
      have hca : concatArrays? (activePools [(0, natRange 1 F)] 0 0) = none := rfl
      have hloop : simLoop stream N 100000 0 rf (k + 1) (initState F) [] =
          some LoopDone.valueError := by
        simp only [simLoop, initState]
        rw [if_pos (show F + 1 ≤ N from hF)]
        split
        · rfl
        · rename_i available heq
          rw [hca] at heq
          exact Option.noConfusion heq
      unfold simulatePedigree
      rw [hloop]
  · intro stream N G G' F a V lf rf
    unfold simulatePedigree
    cases hsl : simLoop stream N 100000 V rf lf (initState F) [] with
    | none => rfl
    | some d =>
      cases d with
      | valueError => rfl
      | finished S tr ek => rfl

theorem c8_rejects_nothing_amended_witness :
    simulatePedigree (fun _ => 0) 3 1 1 8 0 5 5 = some SimOutcome.valueError ∧
    Option.map eraseGenotyped (simulatePedigree (fun _ => 0) 3 1 1 8 1 5 5) =
      Option.map eraseGenotyped (simulatePedigree (fun _ => 0) 3 99 1 8 1 5 5) :=
  ⟨c8_rejects_nothing_amended.1 (fun _ => 0) 3 1 1 8 5 5 (by omega) (by omega),
    c8_rejects_nothing_amended.2 (fun _ => 0) 3 1 99 1 8 1 5 5⟩

/-- C6: for every run with `0 < n_genotyped ≤ n_individuals`, the genotyped
cohort is exactly the ids `[n_individuals - n_genotyped + 1, n_individuals]`
in ascending order, and the genotyped cross-reference file holds one line per
such id with the id duplicated in two columns. -/
theorem c6_genotyped_cohort {stream : Nat → Nat} {N G F a V lf rf : Nat}
    {r : RunResult}
    (h : outcomeResult (simulatePedigree stream N G F a V lf rf) = some r)
    (hG0 : 0 < G) (hGN : G ≤ N) :
    r.genotypedIds = natRange (N - G + 1) G ∧
    parseGenoFile (genotypedFile r.genotypedIds) =
      some ((natRange (N - G + 1) G).map (fun i => (i, i))) := by
  obtain ⟨-, -, -, -, -, -, -, -, hgids⟩ := simulatePedigree_good h
  have h1 : r.genotypedIds = natRange (N - G + 1) G := by
    rw [hgids, tailSlice, if_neg (by omega), natRange_length, natRange_drop]
    congr 1 <;> omega
  refine ⟨h1, ?_⟩
  rw [h1]
  exact parseGenoFile_roundTrip _

theorem c6_genotyped_cohort_witness :
    outcomeResult (simulatePedigree (fun n => n % 2) 7 2 3 8 1 5 5) =
      some (runD (simulatePedigree (fun n => n % 2) 7 2 3 8 1 5 5)) ∧
    0 < 2 ∧ 2 ≤ 7 ∧
    (runD (simulatePedigree (fun n => n % 2) 7 2 3 8 1 5 5)).genotypedIds =
      natRange 6 2 ∧
    parseGenoFile (genotypedFile
        (runD (simulatePedigree (fun n => n % 2) 7 2 3 8 1 5 5)).genotypedIds) =
      some [(6, 6), (7, 7)] := by
  have h : outcomeResult (simulatePedigree (fun n => n % 2) 7 2 3 8 1 5 5) =
      some (runD (simulatePedigree (fun n => n % 2) 7 2 3 8 1 5 5)) := rfl
  have hmain := c6_genotyped_cohort h (by omega) (by omega)
  exact ⟨h, by omega, by omega, hmain.1, by rw [hmain.2]; rfl⟩

/-- C7: serializing a finalized pedigree as one space-separated `id sire dam`
line per individual (no header, ascending id order, trailing newline per line)
and re-parsing the file yields exactly the same sequence of (id, sire, dam)
triples in the same order. -/
theorem c7_pedigree_roundtrip {stream : Nat → Nat} {N G F a V lf rf : Nat}
    {r : RunResult}
    (h : outcomeResult (simulatePedigree stream N G F a V lf rf) = some r) :
    parsePedFile (pedigreeFile (pedRows N r.sires r.dams)) =
      some (pedRows N r.sires r.dams) :=
  parsePedFile_roundTrip _

theorem c7_pedigree_roundtrip_witness :
    outcomeResult (simulatePedigree (fun n => n % 2) 4 2 2 8 1 5 5) =
      some (runD (simulatePedigree (fun n => n % 2) 4 2 2 8 1 5 5)) ∧
    parsePedFile (pedigreeFile (pedRows 4
        (runD (simulatePedigree (fun n => n % 2) 4 2 2 8 1 5 5)).sires
        (runD (simulatePedigree (fun n => n % 2) 4 2 2 8 1 5 5)).dams)) =
      some (pedRows 4
        (runD (simulatePedigree (fun n => n % 2) 4 2 2 8 1 5 5)).sires
        (runD (simulatePedigree (fun n => n % 2) 4 2 2 8 1 5 5)).dams) := by
  have h : outcomeResult (simulatePedigree (fun n => n % 2) 4 2 2 8 1 5 5) =
      some (runD (simulatePedigree (fun n => n % 2) 4 2 2 8 1 5 5)) := rfl
  exact ⟨h, c7_pedigree_roundtrip h⟩

/-- C10: for every run of `simulate_genotypes` (over a non-empty id list, as
numpy's `ids.max()` requires), the output file splits on newlines into exactly
its lines, and every line has the same length — the id zero-padded to the
width of the largest input id, one space, then exactly `n_snps` characters
each in `{0, 1, 2}` — and no line starts with a space. -/
theorem c10_genotype_line_shape {stream : Nat → Nat} {ids : List Nat}
    {nSnps : Nat} (hne : ids ≠ []) :
    splitOnChar '\n' (genotypesFile stream ids nSnps).data =
      genoChunkLines stream nSnps (natDecimal (idsMax ids)).length ids 0 ++ [[]] ∧
    ∀ line ∈ genoChunkLines stream nSnps (natDecimal (idsMax ids)).length ids 0,
      line.length = (natDecimal (idsMax ids)).length + 1 + nSnps ∧
      (∀ c, line.head? = some c → c ≠ ' ') ∧
      ∃ i ∈ ids, ∃ g : List Char,
        line = zfill (natDecimal (idsMax ids)).length (natDecimal i) ++ ' ' :: g ∧
        (zfill (natDecimal (idsMax ids)).length (natDecimal i)).length =
          (natDecimal (idsMax ids)).length ∧
        g.length = nSnps ∧ ∀ ch ∈ g, ch = '0' ∨ ch = '1' ∨ ch = '2' := by
  refine ⟨genotypesFile_split stream ids nSnps, ?_⟩
  intro line hmem
  obtain ⟨i, hi, g, hline, hglen, hgmem⟩ :=
    genoChunkLines_shape stream nSnps _ ids.length ids (Nat.le_refl _) 0 line hmem
  have hwid : (natDecimal i).length ≤ (natDecimal (idsMax ids)).length :=
    natDecimal_length_mono (le_idsMax ids i hi)
  have hzlen : (zfill (natDecimal (idsMax ids)).length (natDecimal i)).length =
      (natDecimal (idsMax ids)).length := zfill_length hwid
  refine ⟨?_, ?_, i, hi, g, hline, hzlen, hglen, hgmem⟩
  · rw [hline]
    simp only [List.length_append, List.length_cons, hzlen, hglen]
    omega
  · intro c hc
    rw [hline] at hc
    have hznil : zfill (natDecimal (idsMax ids)).length (natDecimal i) ≠ [] := by
      intro hz
      unfold zfill at hz
      rcases List.append_eq_nil.mp hz with ⟨-, h2⟩
      exact natDecimal_ne_nil i h2
    cases hz : zfill (natDecimal (idsMax ids)).length (natDecimal i) with
    | nil => exact absurd hz hznil
    | cons a t =>
      rw [hz] at hc
      simp only [List.cons_append, List.head?_cons, Option.some.injEq] at hc
      rw [← hc]
      have ha : a ∈ zfill (natDecimal (idsMax ids)).length (natDecimal i) := by
        rw [hz]
        exact List.mem_cons_self _ _
      exact (isDigit_ne (zfill_digits _ _ _ ha)).1

theorem c10_genotype_line_shape_witness :
    ([7, 12] : List Nat) ≠ [] ∧
    splitOnChar '\n' (genotypesFile (fun n => n) [7, 12] 3).data =
      genoChunkLines (fun n => n) 3 (natDecimal (idsMax [7, 12])).length [7, 12] 0 ++
        [[]] ∧
    ((genoChunkLines (fun n => n) 3 (natDecimal (idsMax [7, 12])).length
        [7, 12] 0).headD [] ∈
      genoChunkLines (fun n => n) 3 (natDecimal (idsMax [7, 12])).length [7, 12] 0) ∧
    ((genoChunkLines (fun n => n) 3 (natDecimal (idsMax [7, 12])).length
        [7, 12] 0).headD []).length =
      (natDecimal (idsMax [7, 12])).length + 1 + 3 := by
  have hne : ([7, 12] : List Nat) ≠ [] := by simp
  have hmem : ((genoChunkLines (fun n => n) 3 (natDecimal (idsMax [7, 12])).length
      [7, 12] 0).headD [] ∈
      genoChunkLines (fun n => n) 3 (natDecimal (idsMax [7, 12])).length [7, 12] 0) :=
    headD_mem [] (genoChunkLines_ne_nil _ _ _ _ _ _)
  have hmain := @c10_genotype_line_shape (fun n => n) [7, 12] 3 hne
  exact ⟨hne, hmain.1, hmem, (hmain.2 _ hmem).1⟩

/-- C9: `avg_progeny_per_parent` has no influence on any output — two runs
that differ only in this parameter and consume the same random draws produce
identical results (pedigree arrays, genotyped cohort, trace, and everything
else the run returns). -/
theorem c9_avg_progeny_unused (stream : Nat → Nat) (N G F a a' V lf rf : Nat) :
    simulatePedigree stream N G F a V lf rf =
      simulatePedigree stream N G F a' V lf rf := rfl

end PedigreeSim
